import Mathlib

/-!
Verification of the profile model, condition-matching engine and PAC compiler
of the switchy-alpha repository (packages/pac).  TypeScript strings are
modelled as lists of characters; every function below is translated from the
corresponding TypeScript source function, keeping the source name wherever
Lean allows it.  JavaScript runtime details that matter (truthiness of empty
strings, parseInt, last-index splitting, 32-bit shift semantics) are modelled
explicitly and noted next to each definition.
-/

set_option maxRecDepth 16384

/-- Strings of the TypeScript source, modelled as lists of characters. -/
abbrev Str : Type := List Char

/-- Shorthand turning a Lean string literal into its character list. -/
def S (s : String) : Str := s.data

/-- Whitespace characters recognised by the JavaScript trim and parseInt
(ASCII whitespace plus no-break space; the exotic Unicode spaces never occur
in the development). -/
def wsChar (c : Char) : Bool :=
  c = ' ' || c = '\t' || c = '\n' || c = '\r' || c = '\x0b' || c = '\x0c' || c = '\xa0'

/-- Remove trailing whitespace, as the right half of the string trim method. -/
def jsTrimRight (l : Str) : Str := (l.reverse.dropWhile wsChar).reverse

/-- Model of the JavaScript string trim method. -/
def jsTrim (l : Str) : Str := jsTrimRight (l.dropWhile wsChar)

/-- Index of the first occurrence of a character, as the string indexOf
method (none plays the role of the -1 result). -/
def indexOfChar (k : Char) : Str → Option Nat
  | [] => none
  | c :: t => if c = k then some 0 else (indexOfChar k t).map (· + 1)

/-- Index of the last occurrence of a character, as the string lastIndexOf
method. -/
def lastIndexOfChar (k : Char) (l : Str) : Option Nat :=
  (indexOfChar k l.reverse).map (fun i => l.length - 1 - i)

/-- Split on every occurrence of a single character, as the string split
method with a one-character separator. -/
def splitOnChar (k : Char) : Str → List Str
  | [] => [[]]
  | c :: t =>
    match splitOnChar k t with
    | [] => if c = k then [[], []] else [[c]]
    | h :: r => if c = k then [] :: h :: r else (c :: h) :: r

/-- Position of the first occurrence of a substring. -/
def findSub (needle : Str) : Str → Option Nat
  | [] => if needle = [] then some 0 else none
  | s@(_ :: t) => if needle.isPrefixOf s then some 0 else (findSub needle t).map (· + 1)

/-- Substring containment test, as a non-negative indexOf result. -/
def hasSub (needle s : Str) : Bool := (findSub needle s).isSome

/-- Split on every occurrence of a substring separator, as the string split
method with a multi-character separator; `cur` accumulates the current piece
in reverse, and the counter consumes the remaining characters of a separator
that has just been matched, keeping the recursion structural.  An empty
separator never splits here (that case does not occur in the source usage,
which only splits on "://"). -/
def splitOnSubGo (needle : Str) : Str → Nat → Str → List Str
  | cur, _, [] => [cur.reverse]
  | cur, k + 1, _ :: t => splitOnSubGo needle cur k t
  | cur, 0, c :: t =>
    if needle ≠ [] ∧ needle.isPrefixOf (c :: t) then
      cur.reverse :: splitOnSubGo needle [] (needle.length - 1) t
    else
      splitOnSubGo needle (c :: cur) 0 t

/-- Split a string on a substring separator. -/
def splitOnSub (needle s : Str) : List Str := splitOnSubGo needle [] 0 s

/-- Uppercase an ASCII letter, as the string toUpperCase method (all strings
reaching it in the source are ASCII). -/
def toUpperChar (c : Char) : Char :=
  if 'a' ≤ c ∧ c ≤ 'z' then Char.ofNat (c.toNat - 32) else c

/-- Uppercase a string. -/
def toUpperStr (s : Str) : Str := s.map toUpperChar

/-- Numeric value of a decimal digit character. -/
def digitVal (c : Char) : Nat := c.toNat - 48

/-- Decimal value of a digit string. -/
def decValue (l : Str) : Nat := l.foldl (fun a c => 10 * a + digitVal c) 0

/-- Decimal digits of a natural number, produced with explicit fuel so that
the definition reduces inside the kernel; the accumulator collects the final
characters. -/
def natToStrGo : Nat → Nat → Str → Str
  | 0, _, acc => acc
  | fuel + 1, n, acc =>
    if n < 10 then Char.ofNat (48 + n) :: acc
    else natToStrGo fuel (n / 10) (Char.ofNat (48 + n % 10) :: acc)

/-- Decimal representation of a natural number, as the JavaScript number
toString method on naturals. -/
def natToStr (n : Nat) : Str := natToStrGo (n + 1) n []

/-- Decimal representation of an integer. -/
def intToStr (i : Int) : Str :=
  if i < 0 then '-' :: natToStr i.natAbs else natToStr i.toNat

/-- Value of the leading run of decimal digits, or none when the run is
empty, following the core of the JavaScript parseInt. -/
def parseDigitsRun (l : Str) : Option Nat :=
  let run := l.takeWhile Char.isDigit
  if run = [] then none else some (decValue run)

/-- Model of the JavaScript parseInt with radix 10: skip whitespace, read an
optional sign and then the longest digit run; none plays the role of NaN.
The trailing trim is harmless since parsing stops at the first non-digit. -/
def parseIntJS (s : Str) : Option Int :=
  let t := jsTrim s
  if t.head? = some '-' then (parseDigitsRun t.tail).map (fun n => -(n : Int))
  else if t.head? = some '+' then (parseDigitsRun t.tail).map (fun n => (n : Int))
  else (parseDigitsRun t).map (fun n => (n : Int))

/-! ## A small regular-expression engine

The source compiles condition patterns to JavaScript RegExp objects.  The
regexes produced by shExp2RegExp (and the plain literal regexes used by the
concrete theorems below) fall into a small fragment: optional boundary
alternative, optional anchors, and a sequence of literal characters,
single-character wildcards and unbounded wildcards.  The engine below gives
that fragment the JavaScript test semantics (match anywhere unless
anchored).  A source string outside the fragment is treated as never
matching, exactly like the safeRegex fallback of the source treats an
invalid regex. -/

/-- Token of the supported regular-expression fragment. -/
inductive RTok : Type where
  | lit (c : Char)
  | anyone
  | anystar
deriving DecidableEq

/-- Compiled regex of the supported fragment: an optional label-boundary
alternative prefix, optional anchors and a token sequence. -/
structure SRegex where
  bndry : Bool
  anchS : Bool
  toks : List RTok
  anchE : Bool
deriving DecidableEq

/-- Characters that the token parser refuses outside an escape (their
regex meaning is not part of the modelled fragment). -/
def rUnsupported (c : Char) : Bool :=
  c = '^' || c = '$' || c = '*' || c = '+' || c = '?' || c = '(' || c = ')' ||
  c = '[' || c = ']' || c = '|' || c = Char.ofNat 123 || c = Char.ofNat 125

/-- Parse the token sequence and the optional end anchor of a regex source
string. -/
def parseRToks : Str → Option (List RTok × Bool)
  | [] => some ([], false)
  | ['$'] => some ([], true)
  | '\\' :: c :: rest => (parseRToks rest).map (fun p => (RTok.lit c :: p.1, p.2))
  | ['\\'] => none
  | '.' :: '*' :: rest => (parseRToks rest).map (fun p => (RTok.anystar :: p.1, p.2))
  | '.' :: rest => (parseRToks rest).map (fun p => (RTok.anyone :: p.1, p.2))
  | c :: rest =>
    if rUnsupported c then none
    else (parseRToks rest).map (fun p => (RTok.lit c :: p.1, p.2))

/-- Parse a regex source string of the fragment. -/
def parseSRegex (s : Str) : Option SRegex :=
  if (S "(?:^|\\.)").isPrefixOf s then
    (parseRToks (s.drop 8)).map (fun p => ⟨true, false, p.1, p.2⟩)
  else if s.head? = some '^' then
    (parseRToks s.tail).map (fun p => ⟨false, true, p.1, p.2⟩)
  else
    (parseRToks s).map (fun p => ⟨false, false, p.1, p.2⟩)

/-- Search for a match of the label-boundary alternative: the literal-dot
branch may fire at every position of the string. -/
def srchB (mAt : Str → Bool) : Str → Bool
  | [] => false
  | c :: t => ((c = '.') && mAt t) || srchB mAt t

/-- Search for an unanchored match at every position, including the final
empty position. -/
def srchAny (mAt : Str → Bool) : Str → Bool
  | [] => mAt []
  | c :: t => mAt (c :: t) || srchAny mAt t

/-- Token sequence matching the whole of a string.  An unbounded wildcard
consumes an arbitrary run, so the remaining tokens may match any suffix;
this formulation is equivalent to backtracking and recurses structurally on
the token list. -/
def matchExact : List RTok → Str → Bool
  | [], s => s.isEmpty
  | RTok.lit c :: ts, s =>
    match s with
    | [] => false
    | a :: s2 => (a = c) && matchExact ts s2
  | RTok.anyone :: ts, s =>
    match s with
    | [] => false
    | _ :: s2 => matchExact ts s2
  | RTok.anystar :: ts, s => srchAny (matchExact ts) s

/-- Token sequence matching some prefix of a string. -/
def matchPref : List RTok → Str → Bool
  | [], _ => true
  | RTok.lit c :: ts, s =>
    match s with
    | [] => false
    | a :: s2 => (a = c) && matchPref ts s2
  | RTok.anyone :: ts, s =>
    match s with
    | [] => false
    | _ :: s2 => matchPref ts s2
  | RTok.anystar :: ts, s => srchAny (matchPref ts) s

/-- JavaScript RegExp test semantics for the fragment. -/
def reTest (re : SRegex) (s : Str) : Bool :=
  let mAt : Str → Bool := fun t => if re.anchE then matchExact re.toks t else matchPref re.toks t
  if re.anchS then mAt s
  else if re.bndry then mAt s || srchB mAt s
  else srchAny mAt s

/-- Test a regex source string against a string; sources outside the
fragment never match, like the never-matching fallback of safeRegex. -/
def srcTest (src s : Str) : Bool :=
  match parseSRegex src with
  | none => false
  | some re => reTest re s

/-- Test a joined alternation of regex sources, as the source joins the
per-part regexes with a bar before compiling; an empty part list joins to
the empty regex, which matches everything. -/
def altTest (srcs : List Str) (s : Str) : Bool :=
  match srcs with
  | [] => srcTest [] s
  | _ => srcs.any (fun src => srcTest src s)

/-! ## shexp-utils.ts -/

/-- Characters escaped by shExp2RegExp, from the metaCharsStr constant of
shexp-utils.ts. -/
def regExpMetaChar (c : Char) : Bool := (S "\\[^$.|?*+()\x7b\x7d/").contains c

/-- Body translation of shExp2RegExp: star to dot-star, question mark to
dot, metacharacters escaped. -/
def shExpBody (l : Str) : Str :=
  l.foldr
    (fun c acc =>
      if c = '*' then '.' :: '*' :: acc
      else if c = '?' then '.' :: acc
      else if regExpMetaChar c then '\\' :: c :: acc
      else c :: acc)
    []

/-- Model of shExp2RegExp from shexp-utils.ts.  With the trim option the
leading and trailing asterisks are stripped and the corresponding anchor is
omitted; the guard in the middle reproduces the source check written after
the trimming loops (the check compares the trimmed length with one and the
first trimmed character with an asterisk, which the loops have just made
impossible, so the early empty-string return is unreachable). -/
def shExp2RegExp (pattern : Str) (trimAsterisk : Bool) : Str :=
  if trimAsterisk then
    let led := pattern.takeWhile (· = '*')
    let s1 := pattern.dropWhile (· = '*')
    let tr := s1.reverse.takeWhile (· = '*')
    let core := (s1.reverse.dropWhile (· = '*')).reverse
    if core.length = 1 ∧ core.head? = some '*' then []
    else
      (if led = [] then ['^'] else []) ++ shExpBody core ++ (if tr = [] then ['$'] else [])
  else '^' :: shExpBody pattern ++ ['$']

/-- Model of escapeSlash from shexp-utils.ts: insert a backslash before
every unescaped forward slash, tracking the escape state character by
character. -/
def escapeSlashGo (esc : Bool) : Str → Str
  | [] => []
  | c :: t =>
    if c = '/' ∧ esc = false then '\\' :: '/' :: escapeSlashGo false t
    else c :: escapeSlashGo (c = '\\' && !esc) t

/-- Escape unescaped forward slashes. -/
def escapeSlash (l : Str) : Str := escapeSlashGo false l

/-! ## IP utilities from conditions.ts -/

/-- Parsed IP literal. -/
structure IpAddr where
  v4 : Bool
  address : Str
deriving DecidableEq

/-- Remove one layer of square brackets, as the substring(1, length - 1)
step of parseIp. -/
def stripBrackets (ip : Str) : Str :=
  if ip.head? = some '[' then (ip.drop 1).dropLast else ip

/-- Hexadecimal digit or colon, the character set accepted by the simplified
IPv6 validation. -/
def hexColonChar (c : Char) : Bool :=
  c.isDigit || ('a' ≤ c ∧ c ≤ 'f') || ('A' ≤ c ∧ c ≤ 'F') || c = ':'

/-- Model of parseIp from conditions.ts: bracket stripping, character-set
IPv6 validation, four-octet IPv4 validation. -/
def parseIp (ip0 : Str) : Option IpAddr :=
  let ip := stripBrackets ip0
  if ip.contains ':' then
    if ip ≠ [] ∧ ip.all hexColonChar then some ⟨false, ip⟩ else none
  else
    let parts := splitOnChar '.' ip
    if parts.length = 4 ∧ parts.all (fun p => p ≠ [] ∧ p.all Char.isDigit ∧ decValue p ≤ 255) then
      some ⟨true, ip⟩
    else none

/-- Model of ipToNumber from conditions.ts for a valid dotted quad; for
octets up to 255 the JavaScript shift-or pipeline with the final unsigned
coercion equals this arithmetic. -/
def ipToNumber (ip : Str) : Nat :=
  let parts := (splitOnChar '.' ip).map decValue
  (parts.getD 0 0 * 16777216 + parts.getD 1 0 * 65536 + parts.getD 2 0 * 256 + parts.getD 3 0) % 4294967296

/-- Model of isIpInSubnet from conditions.ts.  The mask reproduces the
JavaScript 32-bit shift semantics: the shift count is reduced modulo 32, so
a prefix length of zero yields the full mask.  IPv6 containment is
unimplemented in the source and returns false. -/
def isIpInSubnet (ip subnet : Str) (prefixLength : Int) : Bool :=
  match parseIp ip, parseIp subnet with
  | some a, some b =>
    if a.v4 ≠ b.v4 then false
    else if a.v4 then
      let n := ((32 - prefixLength).emod 32).toNat
      let mask := (4294967295 <<< n) % 4294967296
      (ipToNumber a.address &&& mask) = (ipToNumber b.address &&& mask)
    else false
  | _, _ => false

/-! ## Condition data model (conditions.ts) -/

/-- Request derived from a URL at match time. -/
structure Request where
  url : Str
  host : Str
  scheme : Str
deriving DecidableEq

/-- Tagged union of the condition variants of conditions.ts.  The numeric
fields are JavaScript numbers carrying integral values; the optional fields
are those the TypeScript interfaces declare optional. -/
inductive Cond : Type where
  | trueC : Cond
  | falseC (pattern : Option Str) : Cond
  | urlRegex (pattern : Str) : Cond
  | urlWildcard (pattern : Str) : Cond
  | hostRegex (pattern : Str) : Cond
  | hostWildcard (pattern : Str) : Cond
  | bypassC (pattern : Str) : Cond
  | keyword (pattern : Str) : Cond
  | ipC (ip : Str) (prefixLength : Int) : Cond
  | hostLevels (minValue maxValue : Int) : Cond
  | weekday (days : Option Str) (startDay endDay : Option Int) : Cond
  | timeC (startHour endHour : Int) : Cond
deriving DecidableEq

/-- Split a pattern on bars and keep the non-empty alternatives, as the
split-filter step of the wildcard analyzers. -/
def splitBar (p : Str) : List Str := (splitOnChar '|' p).filter (· ≠ [])

/-- Per-alternative regex source of the HostWildcardCondition analyzer: a
leading dot is promoted to a star-dot; a double-star prefix drops one star
and trims edges; a star-dot prefix converts without trimming, replaces the
first character of the result (always the caret) by the label-boundary
alternative and removes a trailing dot-star-dollar; anything else trims
edges.  The replacement mirrors the JavaScript replace of the first
character matched by an unanchored dot. -/
def hostWildcardPartSrc (pattern : Str) : Str :=
  let p := if pattern.head? = some '.' then '*' :: pattern else pattern
  if (S "**.").isPrefixOf p then shExp2RegExp (p.drop 1) true
  else if (S "*.").isPrefixOf p then
    let r0 := shExp2RegExp (p.drop 2) false
    let r1 := match r0 with
      | [] => []
      | _ :: t => S "(?:^|\\.)" ++ t
    if (S "$*.").isPrefixOf r1.reverse then (r1.reverse.drop 3).reverse else r1
  else shExp2RegExp p true

/-- Regex sources of a HostWildcardCondition pattern. -/
def hostWildcardSrcs (p : Str) : List Str := (splitBar p).map hostWildcardPartSrc

/-- Regex sources of a UrlWildcardCondition pattern. -/
def urlWildcardSrcs (p : Str) : List Str := (splitBar p).map (shExp2RegExp · true)

/-! ## BypassCondition analysis -/

/-- Matcher state produced by the BypassCondition analyzer.  The source
stores either the literal local marker or a compiled regex in the host slot;
here the marker is a boolean and regexes are kept as source strings. -/
structure BypassCache where
  hostLocal : Bool := false
  host : Option Str := none
  ip : Option (Str × Int) := none
  scheme : Option Str := none
  url : Option Str := none
  port : Option Str := none
  normalizedPattern : Str := []
deriving DecidableEq

/-- Final step of the BypassCondition analyzer: a truthy port builds the
full-URL regex (the inner part strips the anchors off the server regex), and
otherwise a non-star server becomes a host regex. -/
def bypassFinish (cache : BypassCache) (server : Str) (matchPort : Option Str) : BypassCache :=
  match matchPort with
  | some (c :: mp) =>
    let serverRegex := shExp2RegExp server false
    let inner := (serverRegex.drop 1).dropLast
    let schemeStr := cache.scheme.getD (S "[^:]+")
    { cache with
      port := some (c :: mp),
      normalizedPattern := cache.normalizedPattern ++ ':' :: c :: mp,
      url := some ('^' :: schemeStr ++ S ":\\/\\/" ++ inner ++ ':' :: c :: mp ++ S "\\/") }
  | _ =>
    if server ≠ S "*" then { cache with host := some (shExp2RegExp server true) } else cache

/-- Model of the BypassCondition analyzer of conditions.ts.  Note that in
the branch where the server is not an IP literal the normalized pattern is
assigned (not appended), which discards a scheme prefix recorded earlier;
this reproduces the source assignment. -/
def bypassAnalyze (pattern : Str) : BypassCache :=
  if pattern = S "<local>" then { hostLocal := true }
  else
    let schemeParts := splitOnSub (S "://") pattern
    let hasScheme := schemeParts.length > 1
    let cache0 : BypassCache :=
      if hasScheme then
        { scheme := some (schemeParts.headD []),
          normalizedPattern := schemeParts.headD [] ++ S "://" }
      else {}
    let server0 := if hasScheme then schemeParts.getD 1 [] else pattern
    let cidrParts := splitOnChar '/' server0
    let cidr : Option (IpAddr × Int) :=
      if cidrParts.length > 1 then
        (parseIp (cidrParts.headD [])).bind
          (fun a => (parseIntJS (cidrParts.getD 1 [])).map (fun L => (a, L)))
      else none
    match cidr with
    | some (a, L) =>
      { cache0 with
        ip := some (a.address, L),
        normalizedPattern := cache0.normalizedPattern ++ a.address ++ '/' :: intToStr L }
    | none =>
      match parseIp server0 with
      | some a =>
        let cache1 := { cache0 with
          normalizedPattern := cache0.normalizedPattern ++
            (if a.v4 then a.address else '[' :: a.address ++ [']']) }
        bypassFinish cache1 a.address none
      | none =>
        let pr : Option Str × Str :=
          match lastIndexOfChar ':' server0 with
          | some pos => (some (server0.drop (pos + 1)), server0.take pos)
          | none => (none, server0)
        let server1 := if pr.2.head? = some '.' then '*' :: pr.2 else pr.2
        let cache1 := { cache0 with normalizedPattern := server1 }
        bypassFinish cache1 server1 pr.1

/-- Matcher of the BypassCondition: every recorded constraint must hold; the
local marker matches loopback addresses and dot-free hosts. -/
def bypassMatch (cache : BypassCache) (r : Request) : Bool :=
  if cache.scheme.getD [] ≠ [] ∧ cache.scheme ≠ some r.scheme then false
  else if (match cache.ip with
    | some (ip, L) => !(isIpInSubnet r.host ip L)
    | none => false) then false
  else if cache.hostLocal then
    r.host = S "127.0.0.1" || r.host = S "::1" || !(r.host.contains '.')
  else if (match cache.host with
    | some src => !(srcTest src r.host)
    | none => false) then false
  else if (match cache.url with
    | some src => !(srcTest src r.url)
    | none => false) then false
  else true

/-- String form of a BypassCondition, from its str handler: the normalized
pattern when truthy, else the pattern itself. -/
def bypassStrPart (pattern : Str) : Str :=
  let n := (bypassAnalyze pattern).normalizedPattern
  if n ≠ [] then n else pattern

/-! ## Condition matching -/

/-- Character-code test used by the WeekdayCondition on a days string: the
character at the day index must have a code above 64; an out-of-range index
gives NaN, which fails the comparison. -/
def weekdayCharTest (d : Str) (day : Int) : Bool :=
  match (if 0 ≤ day then d.get? day.toNat else none) with
  | some c => 64 < c.toNat
  | none => false

/-- Match a condition against a request at a given wall-clock day-of-week
and hour.  The result is none when the analysis step of the source raises
(only the IpCondition analyzer can, on an invalid address); otherwise it is
the boolean the source match returns.  Caching is pure memoization in the
source and is dropped here. -/
def condMatch (c : Cond) (r : Request) (day hour : Int) : Option Bool :=
  match c with
  | Cond.trueC => some true
  | Cond.falseC _ => some false
  | Cond.urlRegex p => some (srcTest (escapeSlash p) r.url)
  | Cond.urlWildcard p => some (altTest (urlWildcardSrcs p) r.url)
  | Cond.hostRegex p => some (srcTest (escapeSlash p) r.host)
  | Cond.hostWildcard p => some (altTest (hostWildcardSrcs p) r.host)
  | Cond.bypassC p => some (bypassMatch (bypassAnalyze p) r)
  | Cond.keyword p => some (decide (r.scheme = S "http") && hasSub p r.url)
  | Cond.ipC ip L =>
    match parseIp (stripBrackets ip) with
    | none => none
    | some a =>
      match parseIp r.host with
      | none => some false
      | some h => if h.v4 ≠ a.v4 then some false else some (isIpInSubnet r.host ip L)
  | Cond.hostLevels mn mx =>
    let dots := (r.host.filter (· = '.')).length
    some (if 0 < dots ∧ (dots : Int) > mx then false else decide (mn ≤ (dots : Int)))
  | Cond.weekday days sd ed =>
    some (match days with
      | some d =>
        if d ≠ [] then weekdayCharTest d day
        else decide (sd.getD 0 ≤ day) && decide (day ≤ ed.getD 6)
      | none => decide (sd.getD 0 ≤ day) && decide (day ≤ ed.getD 6))
  | Cond.timeC sh eh => some (decide (sh ≤ hour) && decide (hour ≤ eh))

/-! ## Condition serialization (str, tag, fromStr) -/

/-- Names of the condition types, used for the handler table and the cache
tags. -/
inductive CondType : Type where
  | trueT | falseT | urlRegexT | urlWildcardT | hostRegexT | hostWildcardT
  | bypassT | keywordT | ipT | hostLevelsT | weekdayT | timeT
deriving DecidableEq

/-- Every condition type, in the declaration order of the handler table. -/
def allCondTypes : List CondType :=
  [CondType.trueT, CondType.falseT, CondType.urlRegexT, CondType.urlWildcardT,
   CondType.hostRegexT, CondType.hostWildcardT, CondType.bypassT, CondType.keywordT,
   CondType.ipT, CondType.hostLevelsT, CondType.weekdayT, CondType.timeT]

/-- TypeScript name of a condition type. -/
def condTypeName : CondType → Str
  | CondType.trueT => S "TrueCondition"
  | CondType.falseT => S "FalseCondition"
  | CondType.urlRegexT => S "UrlRegexCondition"
  | CondType.urlWildcardT => S "UrlWildcardCondition"
  | CondType.hostRegexT => S "HostRegexCondition"
  | CondType.hostWildcardT => S "HostWildcardCondition"
  | CondType.bypassT => S "BypassCondition"
  | CondType.keywordT => S "KeywordCondition"
  | CondType.ipT => S "IpCondition"
  | CondType.hostLevelsT => S "HostLevelsCondition"
  | CondType.weekdayT => S "WeekdayCondition"
  | CondType.timeT => S "TimeCondition"

/-- Abbreviation lists of the condition handlers, in source order. -/
def abbrsOf : CondType → List Str
  | CondType.trueT => [S "True"]
  | CondType.falseT => [S "False", S "Disabled"]
  | CondType.urlRegexT => [S "UR", S "URegex", S "UrlR", S "UrlRegex"]
  | CondType.urlWildcardT =>
    [S "U", S "UW", S "Url", S "UrlW", S "UWild", S "UWildcard", S "UrlWild", S "UrlWildcard"]
  | CondType.hostRegexT => [S "R", S "HR", S "Regex", S "HostR", S "HRegex", S "HostRegex"]
  | CondType.hostWildcardT =>
    [S "", S "H", S "W", S "HW", S "Wild", S "Wildcard", S "Host", S "HostW", S "HWild",
     S "HWildcard", S "HostWild", S "HostWildcard"]
  | CondType.bypassT => [S "B", S "Bypass"]
  | CondType.keywordT => [S "K", S "KW", S "Keyword"]
  | CondType.ipT => [S "Ip"]
  | CondType.hostLevelsT =>
    [S "Lv", S "Level", S "Levels", S "HL", S "HLv", S "HLevel", S "HLevels", S "HostL",
     S "HostLv", S "HostLevel", S "HostLevels"]
  | CondType.weekdayT => [S "WD", S "Week", S "Day", S "Weekday"]
  | CondType.timeT => [S "T", S "Time", S "Hour"]

/-- Condition type of a condition value. -/
def condTypeOf : Cond → CondType
  | Cond.trueC => CondType.trueT
  | Cond.falseC _ => CondType.falseT
  | Cond.urlRegex _ => CondType.urlRegexT
  | Cond.urlWildcard _ => CondType.urlWildcardT
  | Cond.hostRegex _ => CondType.hostRegexT
  | Cond.hostWildcard _ => CondType.hostWildcardT
  | Cond.bypassC _ => CondType.bypassT
  | Cond.keyword _ => CondType.keywordT
  | Cond.ipC _ _ => CondType.ipT
  | Cond.hostLevels _ _ => CondType.hostLevelsT
  | Cond.weekday _ _ _ => CondType.weekdayT
  | Cond.timeC _ _ => CondType.timeT

/-- Abbreviation lookup table: the uppercased type name and every uppercased
abbreviation map to the type.  The table has no colliding keys, so the scan
order is irrelevant. -/
def typeFromAbbr (s : Str) : Option CondType :=
  let u := toUpperStr s
  allCondTypes.findSome? (fun t =>
    if u = toUpperStr (condTypeName t) ∨ (abbrsOf t).any (fun a => toUpperStr a = u) then some t
    else none)

/-- Last abbreviation of a type, selected by the default abbreviation index
of Conditions.str. -/
def lastAbbrOf (t : CondType) : Str := ((abbrsOf t).getLast?).getD []

/-- JavaScript string coercion of a possibly undefined number, as it occurs
in the WeekdayCondition str handler. -/
def optIntStrJS (o : Option Int) : Str :=
  match o with
  | some v => intToStr v
  | none => S "undefined"

/-- Payload of the per-type str handler (or the raw pattern for the types
without a handler); an absent payload is the empty string, matching the
falsiness check of Conditions.str.  This is also the tag payload used by the
analysis cache, which calls the handler str (not the full Conditions.str). -/
def condStrPart : Cond → Str
  | Cond.trueC => []
  | Cond.falseC p => p.getD []
  | Cond.urlRegex p => p
  | Cond.urlWildcard p => p
  | Cond.hostRegex p => p
  | Cond.hostWildcard p => p
  | Cond.bypassC p => bypassStrPart p
  | Cond.keyword p => p
  | Cond.ipC ip L => ip ++ '/' :: intToStr L
  | Cond.hostLevels mn mx => intToStr mn ++ '~' :: intToStr mx
  | Cond.weekday days sd ed =>
    match days with
    | some d => d
    | none => optIntStrJS sd ++ '~' :: optIntStrJS ed
  | Cond.timeC sh eh => intToStr sh ++ '~' :: intToStr eh

/-- Typed serialization: the last abbreviation, a colon, and the payload
after a space when the payload is truthy. -/
def condStrTyped (c : Cond) : Str :=
  let part := condStrPart c
  lastAbbrOf (condTypeOf c) ++ [':'] ++ (if part ≠ [] then ' ' :: part else [])

/-- Model of Conditions.str with the default options: the bare-pattern
shortcut applies to the type whose first abbreviation is empty (the host
wildcard) when the pattern is truthy, does not end in a colon and contains
no space; every other condition serializes through the typed form. -/
def condStr (c : Cond) : Str :=
  match c with
  | Cond.hostWildcard p =>
    if p ≠ [] ∧ p.getLast? ≠ some ':' ∧ p.contains ' ' = false then p else condStrTyped c
  | _ => condStrTyped c

/-- Cache tag of a condition: the type name, a dollar separator and the
handler payload. -/
def condTag (c : Cond) : Str := condTypeName (condTypeOf c) ++ '$' :: condStrPart c

/-- Per-type field parser of Conditions.fromStr, applied to the payload
text.  The NaN prefix length a malformed Ip payload would produce in
JavaScript is modelled as zero; the two values generate the same subnet mask
under the modulo-32 shift, so matching behaviour is preserved. -/
def buildCond (t : CondType) (rest : Str) : Cond :=
  match t with
  | CondType.trueT => Cond.trueC
  | CondType.falseT => Cond.falseC (if rest ≠ [] then some rest else none)
  | CondType.urlRegexT => Cond.urlRegex rest
  | CondType.urlWildcardT => Cond.urlWildcard rest
  | CondType.hostRegexT => Cond.hostRegex rest
  | CondType.hostWildcardT => Cond.hostWildcard rest
  | CondType.bypassT => Cond.bypassC rest
  | CondType.keywordT => Cond.keyword rest
  | CondType.ipT =>
    let parts := splitOnChar '/' rest
    match parseIp (parts.headD []) with
    | some a => Cond.ipC a.address ((parseIntJS (parts.getD 1 (S "32"))).getD 0)
    | none => Cond.ipC (S "0.0.0.0") 0
  | CondType.hostLevelsT =>
    let parts := (splitOnChar '~' rest).map parseIntJS
    let mn := match parts.getD 0 none with
      | some v => if 0 < v then v else 1
      | none => 1
    let mx := match parts.getD 1 none with
      | some v => if 0 < v then v else 1
      | none => 1
    Cond.hostLevels mn mx
  | CondType.weekdayT =>
    if rest.contains '~' = false ∧ rest.length = 7 then Cond.weekday (some rest) none none
    else
      let parts := (splitOnChar '~' rest).map parseIntJS
      let sd := match parts.getD 0 none with
        | some v => if 0 ≤ v ∧ v ≤ 6 then v else 0
        | none => 0
      let ed := match parts.getD 1 none with
        | some v => if 0 ≤ v ∧ v ≤ 6 then v else 0
        | none => 0
      Cond.weekday none (some sd) (some ed)
  | CondType.timeT =>
    let parts := (splitOnChar '~' rest).map parseIntJS
    let sh := match parts.getD 0 none with
      | some v => if 0 ≤ v ∧ v < 24 then v else 0
      | none => 0
    let eh := match parts.getD 1 none with
      | some v => if 0 ≤ v ∧ v < 24 then v else 0
      | none => 0
    Cond.timeC sh eh

/-- Model of Conditions.fromStr: trim, find the first space, read a
colon-terminated abbreviation before it (a missing or out-of-range index
gives no colon, selecting the default empty abbreviation and leaving the
text untrimmed of its type part), then delegate to the per-type parser. -/
def condFromStr (s0 : Str) : Option Cond :=
  let s := jsTrim s0
  let i := (indexOfChar ' ' s).getD s.length
  if 1 ≤ i ∧ s.get? (i - 1) = some ':' then
    (typeFromAbbr (s.take (i - 1))).map (fun t => buildCond t (jsTrim (s.drop (i + 1))))
  else
    (typeFromAbbr []).map (fun t => buildCond t s)

/-! ## Rule lists (rule-list.ts) -/

/-- Rule produced by a rule-list parser. -/
structure ParsedRule where
  condition : Cond
  profileName : Str
  source : Option Str := none
  note : Option Str := none
deriving DecidableEq

/-- Split on every character satisfying a predicate, as a split on a
single-character regex alternation. -/
def splitOnPred (p : Char → Bool) : Str → List Str
  | [] => [[]]
  | c :: t =>
    match splitOnPred p t with
    | [] => if p c then [[], []] else [[c]]
    | h :: r => if p c then [] :: h :: r else (c :: h) :: r

/-- Split a text into lines at every newline or carriage return, as the
split on the newline-or-return regex. -/
def splitLines (text : Str) : List Str :=
  splitOnPred (fun c => c = '\n' || c = '\r') text

/-- Model of the string substring method: indices are clamped to the string
and swapped when given in descending order. -/
def jsSubstring (l : Str) (a b : Nat) : Str :=
  (l.take (max a b)).drop (min a b)

/-- Classify one trimmed AutoProxy line: none for a skipped line, otherwise
the exclusion flag and the rule.  The pattern classification follows the
source: slash-wrapped regex, double-bar domain anchor, single-bar URL start
anchor, starless keyword, and the general wildcard wrapped into a URL
wildcard. -/
def autoProxyRuleOfLine (matchProfileName defaultProfileName : Str) (line : Str) :
    Option (Bool × ParsedRule) :=
  if line = [] ∨ line.head? = some '!' ∨ line.head? = some '[' then none
  else
    let isExcl := (S "@@").isPrefixOf line
    let profile := if isExcl then defaultProfileName else matchProfileName
    let pattern := if isExcl then line.drop 2 else line
    let cond :=
      if pattern.head? = some '/' then
        Cond.urlRegex (jsSubstring pattern 1 (pattern.length - 1))
      else if pattern.head? = some '|' then
        if (pattern.drop 1).head? = some '|' then Cond.hostWildcard (S "*." ++ pattern.drop 2)
        else Cond.urlWildcard (pattern.drop 1 ++ S "*")
      else if pattern.contains '*' = false then Cond.keyword pattern
      else Cond.urlWildcard (S "http://*" ++ pattern ++ S "*")
    some (isExcl, { condition := cond, profileName := profile, source := some line })

/-- Model of AutoProxy.parse from rule-list.ts: lines are trimmed and
classified, exclusion rules and normal rules are collected separately, and
the exclusion rules are emitted first. -/
def autoProxyParse (text matchProfileName defaultProfileName : Str) : List ParsedRule :=
  let lines := (splitLines text).map jsTrim
  let acc := lines.foldl
    (fun (acc : List ParsedRule × List ParsedRule) line =>
      match autoProxyRuleOfLine matchProfileName defaultProfileName line with
      | none => acc
      | some (true, rule) => (acc.1 ++ [rule], acc.2)
      | some (false, rule) => (acc.1, acc.2 ++ [rule]))
    ([], [])
  acc.1 ++ acc.2

/-- Dialect sniffing of the Switchy format: the structured header forces the
structured dialect, otherwise a leading or embedded hash selects the legacy
dialect. -/
def getParserLegacy (text : Str) : Bool :=
  if (S "[SwitchyOmega Conditions").isPrefixOf text then false
  else text.head? = some '#' || hasSub (S "\n#") text

/-- Characters of the word class of the legacy URL wildcard regex, extended
by the bracket class of the same regex. -/
def legacyWChar (c : Char) : Bool :=
  c.isAlphanum || c = '_' || c = '?' || c = '*' || c = '.' || c = '-'

/-- Model of urlWildcard2HostWildcard from conditions.ts: a URL wildcard of
the shape star-scheme, a non-empty run of word-class characters and a
trailing slash-star collapses to its host part. -/
def urlWildcard2HostWildcard (pattern : Str) : Option Str :=
  if (S "*://").isPrefixOf pattern then
    let rest := pattern.drop 4
    if (S "*/").isPrefixOf rest.reverse then
      let mid := rest.dropLast.dropLast
      if mid ≠ [] ∧ mid.all legacyWChar then some mid else none
    else none
  else none

/-- Legacy wildcard normalization of rule-list.ts: an at-prefixed pattern is
taken verbatim; otherwise a star is prepended unless the pattern already
starts with one or has a scheme separator beyond the first position, and a
star is appended unless already present; finally a pure-host URL wildcard
collapses to a host wildcard. -/
def conditionFromLegacyWildcard (pattern : Str) : Cond :=
  let p :=
    if pattern.head? = some '@' then pattern.drop 1
    else
      let needStar : Bool :=
        (match findSub (S "://") pattern with
          | none => true
          | some i => decide (i = 0)) && decide (pattern.head? ≠ some '*')
      let p1 := if needStar then '*' :: pattern else pattern
      if p1.getLast? ≠ some '*' then p1 ++ ['*'] else p1
  match urlWildcard2HostWildcard p with
  | some host => Cond.hostWildcard host
  | none => Cond.urlWildcard p

/-- Loop of the legacy Switchy parser: waits for the begin marker, stops at
the end marker, tracks the current section, routes bang-prefixed lines to
the default profile and collects exclusion rules separately. -/
def parseLegacyGo (matchP defaultP : Str) :
    List Str → Bool → Str → List ParsedRule × List ParsedRule →
    List ParsedRule × List ParsedRule
  | [], _, _, acc => acc
  | line :: rest, begun, sect, acc =>
    if line = [] ∨ line.head? = some ';' then parseLegacyGo matchP defaultP rest begun sect acc
    else if begun = false then
      if toUpperStr line = S "#BEGIN" then parseLegacyGo matchP defaultP rest true sect acc
      else parseLegacyGo matchP defaultP rest begun sect acc
    else if toUpperStr line = S "#END" then acc
    else if line.head? = some '[' ∧ line.getLast? = some ']' then
      parseLegacyGo matchP defaultP rest begun (toUpperStr ((line.drop 1).dropLast)) acc
    else
      let isExcl := line.head? = some '!'
      let profile := if isExcl then defaultP else matchP
      let pattern := if isExcl then line.drop 1 else line
      let cond : Option Cond :=
        if sect = S "WILDCARD" then some (conditionFromLegacyWildcard pattern)
        else if sect = S "REGEXP" then some (Cond.urlRegex pattern)
        else none
      match cond with
      | none => parseLegacyGo matchP defaultP rest begun sect acc
      | some c =>
        let rule : ParsedRule := { condition := c, profileName := profile, source := some line }
        if isExcl then parseLegacyGo matchP defaultP rest begun sect (acc.1 ++ [rule], acc.2)
        else parseLegacyGo matchP defaultP rest begun sect (acc.1, acc.2 ++ [rule])

/-- Model of the legacy Switchy parser. -/
def parseLegacy (text matchP defaultP : Str) : List ParsedRule :=
  let lines := (splitLines text).map jsTrim
  let acc := parseLegacyGo matchP defaultP lines false (S "WILDCARD") ([], [])
  acc.1 ++ acc.2

/-- Index of the last occurrence of a substring. -/
def lastIndexOfSub (needle l : Str) : Option Nat :=
  (findSub needle.reverse l.reverse).map (fun i => l.length - needle.length - i)

/-- Intermediate rule of the structured parser: condition, explicit target
profile when known (none marks a rule awaiting the exclusive default),
source and note. -/
structure OmegaRule where
  condition : Cond
  profile : Option Str
  source : Option Str
  note : Option Str
deriving DecidableEq

/-- Loop of the structured Switchy parser in lenient mode with sources
included: directives set the result mode and the pending note; bang lines
route to the default profile (or await the exclusive default under the
result mode); under the result mode a rule line carries its target after a
space-plus separator and a lone star designates the exclusive default. -/
def parseOmegaGo (matchP defaultP : Str) :
    List Str → Bool → Option Str → Option Str → List OmegaRule →
    List OmegaRule × Bool × Option Str
  | [], withResult, exclusive, _, acc => (acc, withResult, exclusive)
  | line :: rest, withResult, exclusive, noteNext, acc =>
    if line = [] ∨ line.head? = some '[' ∨ line.head? = some ';' then
      parseOmegaGo matchP defaultP rest withResult exclusive noteNext acc
    else if line.head? = some '@' then
      let i := (indexOfChar ' ' line).getD line.length
      let directive := (line.take i).drop 1
      let value := if i = line.length then [] else jsTrim (line.drop (i + 1))
      let u := toUpperStr directive
      if u = S "WITH" then
        let f := toUpperStr value
        let wr := withResult || f = S "RESULT" || f = S "RESULTS"
        parseOmegaGo matchP defaultP rest wr exclusive noteNext acc
      else if u = S "NOTE" then
        parseOmegaGo matchP defaultP rest withResult exclusive (some value) acc
      else parseOmegaGo matchP defaultP rest withResult exclusive noteNext acc
    else
      let step : Option (Str × Option Str × Option Str × Option Str) :=
        if line.head? = some '!' then
          some (line.drop 1, if withResult then none else some defaultP, some line, exclusive)
        else if withResult then
          match lastIndexOfSub (S " +") line with
          | none => none
          | some i =>
            let prof := jsTrim (line.drop (i + 2))
            let body := jsTrim (line.take i)
            some (body, some prof, none, if body = S "*" then some prof else exclusive)
        else some (line, some matchP, none, exclusive)
      match step with
      | none => parseOmegaGo matchP defaultP rest withResult exclusive noteNext acc
      | some (body, prof, src, exclusive1) =>
        match condFromStr body with
        | none => parseOmegaGo matchP defaultP rest withResult exclusive1 noteNext acc
        | some c =>
          let rule : OmegaRule :=
            { condition := c, profile := prof, source := some (src.getD body), note := noteNext }
          parseOmegaGo matchP defaultP rest withResult exclusive1 none (acc ++ [rule])

/-- Model of the structured Switchy parser in lenient mode: after the line
loop, the rules that awaited an explicit target receive the exclusive
default, which falls back to the default profile name or the direct
profile. -/
def parseOmega (text matchP defaultP : Str) : List ParsedRule :=
  let lines := (splitLines text).map jsTrim
  let res := parseOmegaGo matchP defaultP lines false none none []
  let exclusive2 : Option Str :=
    if res.2.1 then some ((res.2.2).getD (if defaultP ≠ [] then defaultP else S "direct"))
    else none
  res.1.map (fun ru =>
    { condition := ru.condition,
      profileName := match ru.profile with
        | some p => p
        | none => exclusive2.getD [],
      source := ru.source,
      note := ru.note })

/-- Does a with-result directive start at this position, following the
directive regex of the Switchy direct-reference scan (case-insensitive,
whitespace run, optional plural, line end or end of text)? -/
def withResultAt (l : Str) : Bool :=
  if (S "@WITH").isPrefixOf (toUpperStr (l.take 5)) ∧ l.length ≥ 5 then
    let rest := l.drop 5
    let ws := rest.takeWhile wsChar
    let rest2 := rest.dropWhile wsChar
    if ws = [] then false
    else if (S "RESULT").isPrefixOf (toUpperStr (rest2.take 6)) ∧ rest2.length ≥ 6 then
      let rest3 := rest2.drop 6
      let lineEnd : Str → Bool := fun t => t = [] || t.head? = some '\r' || t.head? = some '\n'
      lineEnd rest3 || (toUpperStr (rest3.take 1) = S "S" && lineEnd (rest3.drop 1))
    else false
  else false

/-- Scan for the with-result directive at the start of the text or right
after a newline. -/
def omegaWithResult (text : Str) : Bool :=
  let rec go : Str → Bool
    | [] => false
    | c :: t => (decide (c = '\n') && withResultAt t) || go t
  withResultAt text || go text

/-- Update an insertion-ordered string record, as a JavaScript object keyed
by non-index strings: an existing key keeps its place, a new key goes to the
end. -/
def recUpdate (k v : Str) (m : List (Str × Str)) : List (Str × Str) :=
  if m.any (fun e => decide (e.1 = k)) then
    m.map (fun e => if e.1 = k then (k, v) else e)
  else m ++ [(k, v)]

/-- Values of an insertion-ordered record. -/
def recValues (m : List (Str × Str)) : List Str := m.map (·.2)

/-- Model of the Switchy directReferenceSet hook: only the structured
dialect under an explicit with-result directive yields a set; each
non-special line contributes its explicit target or the default profile. -/
def switchyDirectReferenceSet (ruleList _matchP defaultP : Str) : Option (List (Str × Str)) :=
  if ruleList = [] then none
  else
    let text := jsTrim ruleList
    if getParserLegacy text then none
    else if omegaWithResult text = false then none
    else
      let lines := (splitLines text).map jsTrim
      some (lines.foldl
        (fun refs line =>
          if line = [] then refs
          else if (S "[;#@!").contains (line.headD ' ') then refs
          else
            let profile := match lastIndexOfSub (S " +") line with
              | none => if defaultP ≠ [] then defaultP else S "direct"
              | some i => jsTrim (line.drop (i + 2))
            recUpdate ('+' :: profile) profile refs)
        [])

/-- Format dispatch of the rule-list registry; none models an unknown
format. -/
def ruleListParse (format text matchP defaultP : Str) : Option (List ParsedRule) :=
  if format = S "AutoProxy" then some (autoProxyParse text matchP defaultP)
  else if format = S "Switchy" then
    some (if getParserLegacy text then parseLegacy text matchP defaultP
          else parseOmega text matchP defaultP)
  else none

/-! ## Profile model (profiles.ts) -/

/-- Proxy description.  The host and port are optional in the TypeScript
interface; the proxies these theorems touch always carry both, and the
direct pseudo-proxy uses an empty host and port zero. -/
structure Proxy where
  scheme : Str
  host : Str
  port : Int
deriving DecidableEq

/-- The direct pseudo-proxy the matcher returns for bypassed requests. -/
def directProxy : Proxy := ⟨S "direct", [], 0⟩

/-- Scheme-to-keyword table of the PAC output. -/
def pacProtocols (scheme : Str) : Option Str :=
  if scheme = S "http" then some (S "PROXY")
  else if scheme = S "https" then some (S "HTTPS")
  else if scheme = S "socks4" then some (S "SOCKS")
  else if scheme = S "socks5" then some (S "SOCKS5")
  else none

/-- Model of pacResult from profiles.ts: direct or missing proxies and
unknown schemes yield DIRECT; the socks5 scheme emits the dual encoding;
every other known scheme emits its keyword and the host-port pair. -/
def pacResult (proxy : Option Proxy) : Str :=
  match proxy with
  | none => S "DIRECT"
  | some p =>
    if p.scheme = S "direct" then S "DIRECT"
    else
      match pacProtocols p.scheme with
      | none => S "DIRECT"
      | some protocol =>
        if p.scheme = S "socks5" then
          S "SOCKS5 " ++ p.host ++ ':' :: intToStr p.port ++ S "; SOCKS " ++
            p.host ++ ':' :: intToStr p.port
        else protocol ++ ' ' :: p.host ++ ':' :: intToStr p.port

/-- Tagged union of the profile variants.  The flag on the switch variant
distinguishes the virtual alias, and the flag on the rule-list variant the
AutoProxy alias; presentation fields (color, revision) carry no behaviour
and are omitted. -/
inductive ProfileV : Type where
  | direct (name : Str) : ProfileV
  | system (name : Str) : ProfileV
  | fixed (name : Str) (bypassList : List Cond)
      (proxyForHttp proxyForHttps proxyForFtp fallbackProxy : Option Proxy) : ProfileV
  | pacP (name : Str) (pacScript pacUrl : Option Str) : ProfileV
  | switchP (name : Str) (virt : Bool) (defaultProfileName : Str)
      (rules : List (Cond × Str)) : ProfileV
  | ruleListP (name : Str) (autoType : Bool) (format : Str) (ruleList : Str)
      (matchProfileName defaultProfileName : Str) : ProfileV
deriving DecidableEq

/-- Name of a profile. -/
def pName : ProfileV → Str
  | ProfileV.direct n => n
  | ProfileV.system n => n
  | ProfileV.fixed n _ _ _ _ _ => n
  | ProfileV.pacP n _ _ => n
  | ProfileV.switchP n _ _ _ => n
  | ProfileV.ruleListP n _ _ _ _ _ => n

/-- Profile key of a name, from nameAsKey. -/
def nameAsKey (n : Str) : Str := '+' :: n

/-- The two builtin profiles. -/
def builtinProfiles : List (Str × ProfileV) :=
  [(S "+direct", ProfileV.direct (S "direct")), (S "+system", ProfileV.system (S "system"))]

/-- Lookup in an insertion-ordered profile collection. -/
def lookupRec (m : List (Str × ProfileV)) (k : Str) : Option ProfileV :=
  (m.find? (fun e => decide (e.1 = k))).map (·.2)

/-- Model of byName from profiles.ts: the builtin table is consulted before
the user collection (the source also accepts an already-resolved profile
object in place of the name; only the name path matters here). -/
def byName (profileName : Str) (options : List (Str × ProfileV)) : Option ProfileV :=
  let key := nameAsKey profileName
  match lookupRec builtinProfiles key with
  | some p => some p
  | none => lookupRec options key

/-- Model of directReferenceSet from profiles.ts, without the pure
memoization layer: switch profiles contribute their default and every rule
target; rule-list profiles ask the format hook first and fall back to the
match and default names; every other profile type is not inclusive and
contributes nothing. -/
def directReferenceSet (p : ProfileV) : List (Str × Str) :=
  match p with
  | ProfileV.switchP _ _ defaultName rules =>
    rules.foldl (fun refs rule => recUpdate (nameAsKey rule.2) rule.2 refs)
      (recUpdate (nameAsKey defaultName) defaultName [])
  | ProfileV.ruleListP _ _ format ruleList matchName defaultName =>
    let fromFormat :=
      if ruleList ≠ [] ∧ format = S "Switchy" then
        switchyDirectReferenceSet ruleList matchName defaultName
      else none
    match fromFormat with
    | some refs => refs
    | none => recUpdate (nameAsKey defaultName) defaultName
        (recUpdate (nameAsKey matchName) matchName [])
  | _ => []

/-- Model of allReferenceSet from profiles.ts, with explicit fuel standing
for the call stack: the source recursion carries no visited check, so each
recursive call burns one unit, and fuel exhaustion (none) models a stack
overflow.  A name that resolves is recorded and its direct references are
visited in order; a name that does not resolve is passed to the
profile-not-found hook, whose result (if any) is recorded without
recursion. -/
def allRefsF (fuel : Nat) (profileName : Str) (options : List (Str × ProfileV))
    (profileNotFound : Str → Option ProfileV) (result : List (Str × Str)) :
    Option (List (Str × Str)) :=
  match fuel with
  | 0 => none
  | fuel + 1 =>
    match byName profileName options with
    | none =>
      match profileNotFound profileName with
      | some fb => some (recUpdate (nameAsKey (pName fb)) (pName fb) result)
      | none => some result
    | some p =>
      let result1 := recUpdate (nameAsKey (pName p)) (pName p) result
      (recValues (directReferenceSet p)).foldlM
        (fun res nm => allRefsF fuel nm options profileNotFound res) result1

/-- Source slot of a match result (a condition or a plain string). -/
inductive MatchSource : Type where
  | condS (c : Cond)
  | tagS (s : Str)
deriving DecidableEq

/-- Result of matching a profile against a request.  The authentication
echo of the source result is presentation-only and omitted. -/
structure MatchResult where
  profileName : Str
  source : Option MatchSource := none
  proxy : Option Proxy := none
deriving DecidableEq

/-- First element whose condition matches; the outer none propagates a
raised analysis error, the inner none reports that nothing matched. -/
def firstMatchBy {α : Type} (condOf : α → Cond) (r : Request) (day hour : Int) :
    List α → Option (Option α)
  | [] => some none
  | x :: t =>
    match condMatch (condOf x) r day hour with
    | none => none
    | some true => some (some x)
    | some false => firstMatchBy condOf r day hour t

/-- Model of match from profiles.ts.  The outer option propagates a raised
condition-analysis error; the inner option is the null result of the source
(system and PAC profiles, and unknown rule-list formats). -/
def profileMatch (p : ProfileV) (r : Request) (day hour : Int) :
    Option (Option MatchResult) :=
  match p with
  | ProfileV.system _ => some none
  | ProfileV.direct _ =>
    some (some { profileName := S "direct", proxy := some directProxy })
  | ProfileV.fixed _ bypassList pHttp pHttps pFtp pFall =>
    match firstMatchBy id r day hour bypassList with
    | none => none
    | some (some c) =>
      some (some { profileName := pacResult none, source := some (MatchSource.condS c),
                   proxy := some directProxy })
    | some none =>
      let entries : List (Str × Option Proxy) :=
        [(S "http", pHttp), (S "https", pHttps), (S "ftp", pFtp), ([], pFall)]
      match entries.find? (fun e => decide (e.1 = r.scheme) && e.2.isSome) with
      | some e =>
        some (some { profileName := pacResult e.2, source := some (MatchSource.tagS e.1),
                     proxy := e.2 })
      | none =>
        some (some { profileName := pacResult pFall, source := some (MatchSource.tagS []),
                     proxy := pFall })
  | ProfileV.switchP _ _ defaultName rules =>
    match firstMatchBy Prod.fst r day hour rules with
    | none => none
    | some (some rule) =>
      some (some { profileName := rule.2, source := some (MatchSource.condS rule.1) })
    | some none => some (some { profileName := defaultName })
  | ProfileV.ruleListP _ _ format text matchName defaultName =>
    match ruleListParse format text matchName defaultName with
    | none => some none
    | some rules =>
      match firstMatchBy ParsedRule.condition r day hour rules with
      | none => none
      | some (some rule) =>
        some (some { profileName := rule.profileName,
                     source := rule.source.map MatchSource.tagS })
      | some none => some (some { profileName := defaultName })
  | ProfileV.pacP _ _ _ => some none

/-! ## PAC generator (pac-generator.ts)

The generator calls a condition compiler (Conditions.compile) whose source
file is not among the provided sources, only its call sites; the generator
below is therefore parameterised over the compiler, and every theorem about
it holds for an arbitrary compiler. -/

/-- Function name of a profile: every character outside the alphanumeric
range becomes an underscore. -/
def profileFunctionName (name : Str) : Str :=
  S "profile_" ++ name.map (fun c => if c.isAlphanum then c else '_')

/-- Model of escapeJsString: the five sequential global replacements of the
source touch pairwise distinct characters and only introduce fresh
backslashes, so they equal this single pass. -/
def escapeJsString (s : Str) : Str :=
  s.foldr
    (fun c acc =>
      if c = '\\' then '\\' :: '\\' :: acc
      else if c = '\'' then '\\' :: '\'' :: acc
      else if c = '"' then '\\' :: '"' :: acc
      else if c = '\n' then '\\' :: 'n' :: acc
      else if c = '\r' then '\\' :: 'r' :: acc
      else c :: acc)
    []

/-- Join strings with a separator, as the array join method. -/
def joinSep (sep : Str) : List Str → Str
  | [] => []
  | [x] => x
  | x :: y :: t => x ++ sep ++ joinSep sep (y :: t)

/-- Stub function for a missing profile: its body unconditionally returns
DIRECT. -/
def generateNotFoundFunction (includeComments : Bool) (eol : Str) (name : Str) : Str :=
  joinSep eol
    ((if includeComments then [S "// Profile \"" ++ name ++ S "\" not found"] else []) ++
     [S "function " ++ profileFunctionName name ++ S "(url, host, scheme) \x7b",
      S "  return \"DIRECT\";",
      S "\x7d"])

/-- Function of a direct profile. -/
def generateDirectProfile (includeComments : Bool) (eol : Str) (name : Str) : Str :=
  joinSep eol
    ((if includeComments then [S "// DirectProfile: " ++ name] else []) ++
     [S "function " ++ profileFunctionName name ++ S "(url, host, scheme) \x7b",
      S "  return \"DIRECT\";",
      S "\x7d"])

/-- Function of a system profile, degraded to DIRECT inside a PAC script. -/
def generateSystemProfile (includeComments : Bool) (eol : Str) (name : Str) : Str :=
  joinSep eol
    ((if includeComments then
        [S "// SystemProfile: " ++ name ++ S " (not supported in PAC, using DIRECT)"]
      else []) ++
     [S "function " ++ profileFunctionName name ++ S "(url, host, scheme) \x7b",
      S "  return \"DIRECT\";",
      S "\x7d"])

/-- Function of a fixed profile: bypass checks, per-scheme checks, fallback. -/
def generateFixedProfile (compileCond : Cond → Str) (includeComments : Bool) (eol : Str)
    (name : Str) (bypassList : List Cond)
    (pHttp pHttps pFtp pFall : Option Proxy) : Str :=
  let header := (if includeComments then [S "// FixedProfile: " ++ name] else []) ++
    [S "function " ++ profileFunctionName name ++ S "(url, host, scheme) \x7b"]
  let bypass :=
    if bypassList ≠ [] then
      (if includeComments then [S "  // Bypass list"] else []) ++
      bypassList.map (fun c => S "  if (" ++ compileCond c ++ S ") return \"DIRECT\";")
    else []
  let schemeLines :=
    if pHttp.isSome || pHttps.isSome || pFtp.isSome then
      [(S "http", pHttp), (S "https", pHttps), (S "ftp", pFtp)].foldr
        (fun e acc =>
          match e.2 with
          | some _ =>
            (S "  if (scheme === \"" ++ e.1 ++ S "\") return \"" ++
             escapeJsString (pacResult e.2) ++ S "\";") :: acc
          | none => acc)
        []
    else []
  let fallback := [S "  return \"" ++ escapeJsString (pacResult pFall) ++ S "\";", S "\x7d"]
  joinSep eol (header ++ bypass ++ schemeLines ++ fallback)

/-- Function of a PAC profile: an inline script is wrapped in an isolated
scope, a script known only by URL degrades to DIRECT. -/
def generatePacProfile (includeComments : Bool) (eol : Str) (name : Str)
    (pacScript pacUrl : Option Str) : Str :=
  let fn := profileFunctionName name
  let header := if includeComments then [S "// PacProfile: " ++ name] else []
  match pacScript with
  | some (c :: script) =>
    joinSep eol (header ++
      [S "var _pac_" ++ fn ++ S " = (function() \x7b",
       c :: script,
       S "  return FindProxyForURL;",
       S "\x7d)();",
       [],
       S "function " ++ fn ++ S "(url, host, scheme) \x7b",
       S "  return _pac_" ++ fn ++ S "(url, host);",
       S "\x7d"])
  | _ =>
    match pacUrl with
    | some (c :: u) =>
      joinSep eol (header ++
        (if includeComments then
          [S "// Note: PAC URL \"" ++ (c :: u) ++ S "\" should be fetched and embedded"]
         else []) ++
        [S "function " ++ fn ++ S "(url, host, scheme) \x7b",
         S "  return \"DIRECT\";",
         S "\x7d"])
    | _ =>
      joinSep eol (header ++
        [S "function " ++ fn ++ S "(url, host, scheme) \x7b",
         S "  return \"DIRECT\";",
         S "\x7d"])

/-- Function of a switch profile: one static dispatch per rule, then the
default dispatch. -/
def generateSwitchProfile (compileCond : Cond → Str) (includeComments : Bool) (eol : Str)
    (name defaultName : Str) (rules : List (Cond × Str)) : Str :=
  joinSep eol
    ((if includeComments then [S "// SwitchProfile: " ++ name] else []) ++
     [S "function " ++ profileFunctionName name ++ S "(url, host, scheme) \x7b"] ++
     rules.map (fun rule =>
       S "  if (" ++ compileCond rule.1 ++ S ") return " ++ profileFunctionName rule.2 ++
       S "(url, host, scheme);") ++
     [S "  return " ++ profileFunctionName defaultName ++ S "(url, host, scheme);",
      S "\x7d"])

/-- Function of a rule-list profile: the list is parsed at generation time
and emitted like a switch profile. -/
def generateRuleListProfile (compileCond : Cond → Str) (includeComments : Bool) (eol : Str)
    (name format text matchName defaultName : Str) : Str :=
  let rules :=
    if text ≠ [] then (ruleListParse format text matchName defaultName).getD []
    else []
  joinSep eol
    ((if includeComments then
        [S "// RuleListProfile: " ++ name ++ S " (format: " ++ format ++ S ")"]
      else []) ++
     [S "function " ++ profileFunctionName name ++ S "(url, host, scheme) \x7b"] ++
     rules.map (fun rule =>
       S "  if (" ++ compileCond rule.condition ++ S ") return " ++
       profileFunctionName rule.profileName ++ S "(url, host, scheme);") ++
     [S "  return " ++ profileFunctionName defaultName ++ S "(url, host, scheme);",
      S "\x7d"])

/-- Function of one resolved profile, dispatched on its type. -/
def generateProfileFunction (compileCond : Cond → Str) (includeComments : Bool) (eol : Str)
    (options : List (Str × ProfileV)) (name : Str) : Str :=
  match byName name options with
  | none => generateNotFoundFunction includeComments eol name
  | some (ProfileV.direct n) => generateDirectProfile includeComments eol n
  | some (ProfileV.system n) => generateSystemProfile includeComments eol n
  | some (ProfileV.fixed n bl ph phs pf pfall) =>
    generateFixedProfile compileCond includeComments eol n bl ph phs pf pfall
  | some (ProfileV.pacP n script url) => generatePacProfile includeComments eol n script url
  | some (ProfileV.switchP n _ d rules) =>
    generateSwitchProfile compileCond includeComments eol n d rules
  | some (ProfileV.ruleListP n _ format text m d) =>
    generateRuleListProfile compileCond includeComments eol n format text m d

/-- Entry dispatcher of the generated script. -/
def generateMain (includeComments : Bool) (eol : Str) (profileName : Str) : Str :=
  joinSep eol
    ((if includeComments then [S "// Main PAC function"] else []) ++
     [S "function FindProxyForURL(url, host) \x7b",
      S "  \"use strict\";",
      S "  var scheme = url.substr(0, url.indexOf(\":\"));",
      S "  return " ++ profileFunctionName profileName ++ S "(url, host, scheme);",
      S "\x7d"])

/-- Model of PacGenerator.generate: the reference closure is computed with a
not-found hook that substitutes a synthetic direct profile, every name of
the closure receives a function (a stub when the name does not resolve,
since the hook is called exactly for those names), and the functions are
concatenated before the dispatcher.  The fuel feeds the closure walk; none
models its stack overflow. -/
def pacGenerate (fuel : Nat) (compileCond : Cond → Str)
    (options : List (Str × ProfileV)) (includeComments : Bool) (eol : Str)
    (profileName : Str) : Option Str :=
  (allRefsF fuel profileName options (fun nm => some (ProfileV.direct nm)) []).map
    (fun refs =>
      let fns := (recValues refs).map (fun nm =>
        if byName nm options = none then generateNotFoundFunction includeComments eol nm
        else generateProfileFunction compileCond includeComments eol options nm)
      joinSep (eol ++ eol) fns ++ eol ++ eol ++ generateMain includeComments eol profileName)

/-! ## Definitions used by the claim statements -/

/-- Two-profile reference cycle: profile A defaults to B and B back to A. -/
def cycleOptions : List (Str × ProfileV) :=
  [(S "+A", ProfileV.switchP (S "A") false (S "B") []),
   (S "+B", ProfileV.switchP (S "B") false (S "A") [])]

/-- Collection with a single switch profile whose default target is absent
from the collection. -/
def singleSwitchOptions (e m : Str) : List (Str × ProfileV) :=
  [(nameAsKey e, ProfileV.switchP e false m [])]

/-- Collection whose entry profile reaches the absent target only through a
middle switch profile. -/
def chainSwitchOptions (e mid m : Str) : List (Str × ProfileV) :=
  [(nameAsKey e, ProfileV.switchP e false mid []),
   (nameAsKey mid, ProfileV.switchP mid false m [])]

/-- Canonical-field predicate under which serialization round-trips
field-for-field: payloads are stable under trimming, the bypass pattern is
its own normalization, the address field is in parse-normal form without a
path separator, and the numeric day, hour and level fields are present and
inside their documented ranges. -/
def canonicalCond : Cond → Prop
  | Cond.trueC => True
  | Cond.falseC p =>
    match p with
    | none => True
    | some q => q ≠ [] ∧ jsTrim q = q
  | Cond.urlRegex p => jsTrim p = p
  | Cond.urlWildcard p => jsTrim p = p
  | Cond.hostRegex p => jsTrim p = p
  | Cond.hostWildcard p => jsTrim p = p
  | Cond.bypassC p => bypassStrPart p = p ∧ jsTrim p = p
  | Cond.keyword p => jsTrim p = p
  | Cond.ipC ip _ =>
    (parseIp ip).map IpAddr.address = some ip ∧ ip.contains '/' = false ∧ jsTrim ip = ip
  | Cond.hostLevels mn mx => 0 < mn ∧ 0 < mx
  | Cond.weekday days sd ed =>
    match days with
    | some d => d.length = 7 ∧ d.contains '~' = false ∧ jsTrim d = d ∧ sd = none ∧ ed = none
    | none => (∃ v, sd = some v ∧ 0 ≤ v ∧ v ≤ 6) ∧ (∃ w, ed = some w ∧ 0 ≤ w ∧ w ≤ 6)
  | Cond.timeC sh eh => 0 ≤ sh ∧ sh < 24 ∧ 0 ≤ eh ∧ eh < 24

/-- Condition is not a bypass condition. -/
def notBypassCond (c : Cond) : Prop := condTypeOf c ≠ CondType.bypassT

/-- Two weekday conditions use the same field representation (both a days
string or both a day range); unrelated to every other pair. -/
def weekdaySameRep : Cond → Cond → Prop
  | Cond.weekday d1 _ _, Cond.weekday d2 _ _ => d1.isSome = d2.isSome
  | _, _ => True

/-- A weekday condition's days string, when present, is truthy (non-empty).
An empty days string is serialized into the tag by the str handler but is
falsy for the matcher, which then falls through to the day range the tag
does not record; unrelated to every other condition. -/
def weekdayDaysTruthy : Cond → Prop
  | Cond.weekday (some d) _ _ => d ≠ []
  | _ => True

/-- Scheme-specific proxy slot of a fixed profile for a request scheme,
following the words of the claim about the fixed-profile matcher. -/
def schemeProxyOf (pHttp pHttps pFtp : Option Proxy) (scheme : Str) : Option Proxy :=
  if scheme = S "http" then pHttp
  else if scheme = S "https" then pHttps
  else if scheme = S "ftp" then pFtp
  else none

/-- Match result of a fixed profile as the claim describes it: the first
matching bypass condition gives a direct result, else the configured
scheme-specific proxy, else the fallback proxy. -/
def fixedSpecResult (bypassList : List Cond) (pHttp pHttps pFtp pFall : Option Proxy)
    (r : Request) (day hour : Int) : MatchResult :=
  match bypassList.find? (fun c => decide (condMatch c r day hour = some true)) with
  | some c =>
    { profileName := S "DIRECT", source := some (MatchSource.condS c), proxy := some directProxy }
  | none =>
    match schemeProxyOf pHttp pHttps pFtp r.scheme with
    | some pr =>
      { profileName := pacResult (some pr), source := some (MatchSource.tagS r.scheme),
        proxy := some pr }
    | none =>
      { profileName := pacResult pFall, source := some (MatchSource.tagS []), proxy := pFall }

/-- Exclusion-source test on a parsed rule: its source line starts with the
double-at marker. -/
def exclusionSrc (r : ParsedRule) : Bool := (S "@@").isPrefixOf (r.source.getD [])

/-! ## Theorems -/

/-- Helper for C1: on the two-profile cycle the reference walk exhausts any
amount of fuel from either entry, whatever names were already collected. -/
theorem allRefsF_cycle_none (fuel : Nat) :
    ∀ result, allRefsF fuel (S "A") cycleOptions (fun _ => none) result = none ∧
      allRefsF fuel (S "B") cycleOptions (fun _ => none) result = none := by
  induction fuel with
  | zero => intro result; exact ⟨rfl, rfl⟩
  | succ n ih =>
    intro result
    have hA : byName (S "A") cycleOptions = some (ProfileV.switchP (S "A") false (S "B") []) :=
      by decide
    have hB : byName (S "B") cycleOptions = some (ProfileV.switchP (S "B") false (S "A") []) :=
      by decide
    have hdA : recValues (directReferenceSet (ProfileV.switchP (S "A") false (S "B") [])) =
        [S "B"] := by decide
    have hdB : recValues (directReferenceSet (ProfileV.switchP (S "B") false (S "A") [])) =
        [S "A"] := by decide
    constructor
    · simp only [allRefsF, hA, hdA, List.foldlM]
      rw [(ih _).2]
      rfl
    · simp only [allRefsF, hB, hdB, List.foldlM]
      rw [(ih _).1]
      rfl

/-- C1: the claim says the reference closure tolerates the two-profile cycle
A to B to A and returns exactly the pair; the source recursion carries no
visited check, so on that very cycle it never returns: with the call stack
modelled as fuel, every fuel amount is exhausted (a stack overflow), for
either entry profile.  The spec is right and the code is wrong here. -/
theorem allReferenceSet_cycle_diverges (fuel : Nat) :
    allRefsF fuel (S "A") cycleOptions (fun _ => none) [] = none ∧
    allRefsF fuel (S "B") cycleOptions (fun _ => none) [] = none :=
  allRefsF_cycle_none fuel []

/-- C7: with the trim option, the all-asterisk pattern does not produce the
empty string the source comment announces; the dead guard lets the
conversion fall through to an end anchor, so a single star yields the
dollar-only regex (which still matches every string, but is not the
documented empty source). -/
theorem shExp2RegExp_star_gives_dollar :
    shExp2RegExp (S "*") true = S "$" ∧ shExp2RegExp (S "*") true ≠ [] := by
  exact ⟨by decide, by decide⟩

/-- C10: builtin profiles shadow user entries: whatever the collection
contains (including entries under the direct or system keys), looking up the
builtin names returns the builtin profiles. -/
theorem byName_builtin_shadows (options : List (Str × ProfileV)) :
    byName (S "direct") options = some (ProfileV.direct (S "direct")) ∧
    byName (S "system") options = some (ProfileV.system (S "system")) :=
  ⟨rfl, rfl⟩

/-- C3: pacResult yields DIRECT for a missing proxy, the direct scheme and
any scheme outside the table; the three plain table rows produce their
keyword with the host-port pair; and socks5 produces exactly the dual
encoding. -/
theorem pacResult_spec :
    pacResult none = S "DIRECT" ∧
    (∀ h p, pacResult (some ⟨S "direct", h, p⟩) = S "DIRECT") ∧
    (∀ s h p, pacProtocols s = none → pacResult (some ⟨s, h, p⟩) = S "DIRECT") ∧
    (∀ h p, pacResult (some ⟨S "http", h, p⟩) = S "PROXY " ++ h ++ ':' :: intToStr p) ∧
    (∀ h p, pacResult (some ⟨S "https", h, p⟩) = S "HTTPS " ++ h ++ ':' :: intToStr p) ∧
    (∀ h p, pacResult (some ⟨S "socks4", h, p⟩) = S "SOCKS " ++ h ++ ':' :: intToStr p) ∧
    pacResult (some ⟨S "socks5", S "h", 1080⟩) = S "SOCKS5 h:1080; SOCKS h:1080" := by
  refine ⟨rfl, fun h p => rfl, fun s h p hnone => ?_, fun h p => ?_, fun h p => ?_,
    fun h p => ?_, by decide⟩
  · by_cases hd : s = S "direct" <;> simp [pacResult, hd, hnone]
  · have hne1 : ¬ (S "http" = S "direct") := by decide
    have hne2 : ¬ (S "http" = S "socks5") := by decide
    have hp : pacProtocols (S "http") = some (S "PROXY") := by decide
    have hsp : S "PROXY " = S "PROXY" ++ [' '] := by decide
    simp [pacResult, hne1, hne2, hp, hsp, List.append_assoc]
  · have hne1 : ¬ (S "https" = S "direct") := by decide
    have hne2 : ¬ (S "https" = S "socks5") := by decide
    have hp : pacProtocols (S "https") = some (S "HTTPS") := by decide
    have hsp : S "HTTPS " = S "HTTPS" ++ [' '] := by decide
    simp [pacResult, hne1, hne2, hp, hsp, List.append_assoc]
  · have hne1 : ¬ (S "socks4" = S "direct") := by decide
    have hne2 : ¬ (S "socks4" = S "socks5") := by decide
    have hp : pacProtocols (S "socks4") = some (S "SOCKS") := by decide
    have hsp : S "SOCKS " = S "SOCKS" ++ [' '] := by decide
    simp [pacResult, hne1, hne2, hp, hsp, List.append_assoc]

/-- Witness for C3 at a scheme outside the table. -/
theorem pacResult_spec_witness :
    pacResult (some ⟨S "quic", S "x", 1⟩) = S "DIRECT" :=
  pacResult_spec.2.2.1 (S "quic") (S "x") 1 (by decide)

/-- Helper for C2: the boundary search succeeds on any string that ends
with a dot followed by a suffix the token sequence accepts. -/
theorem srchB_append_dot (mAt : Str → Bool) (xs ys : Str) (h : mAt ys = true) :
    srchB mAt (xs ++ '.' :: ys) = true := by
  induction xs with
  | nil => simp [srchB, h]
  | cons c t ih => simp [srchB, ih]

/-- Helper for C2 and other boundary regexes: a parsed single-alternative
boundary-anchored regex tests true whenever the boundary search succeeds. -/
theorem srcTest_bndry (src : Str) (re : SRegex) (hsrc : parseSRegex src = some re)
    (hb : re.anchS = false) (hbd : re.bndry = true) (s : Str)
    (h : srchB (fun t => if re.anchE = true then matchExact re.toks t else matchPref re.toks t)
        s = true) :
    srcTest src s = true := by
  obtain ⟨bd, sa, tk, ae⟩ := re
  simp only at hb hbd
  subst hb hbd
  simp only [srcTest, hsrc, reTest]
  simp [h]

/-- C2: the star-dot host wildcard matches every subdomain host (any prefix
followed by the dotted base domain), matches the bare base domain itself,
and rejects a host that merely ends in the same characters without a label
boundary. -/
theorem hostWildcard_base_domain :
    (∀ sub url scheme : Str,
      condMatch (Cond.hostWildcard (S "*.example.com"))
        ⟨url, sub ++ S ".example.com", scheme⟩ 0 0 = some true) ∧
    condMatch (Cond.hostWildcard (S "*.example.com")) ⟨[], S "example.com", []⟩ 0 0 =
      some true ∧
    condMatch (Cond.hostWildcard (S "*.example.com")) ⟨[], S "otherexample.com", []⟩ 0 0 =
      some false := by
  refine ⟨fun sub url scheme => ?_, by decide, by decide⟩
  have hsrcs : hostWildcardSrcs (S "*.example.com") = [S "(?:^|\\.)example\\.com$"] := by
    decide
  have hre : parseSRegex (S "(?:^|\\.)example\\.com$") =
      some ⟨true, false,
        [RTok.lit 'e', RTok.lit 'x', RTok.lit 'a', RTok.lit 'm', RTok.lit 'p', RTok.lit 'l',
         RTok.lit 'e', RTok.lit '.', RTok.lit 'c', RTok.lit 'o', RTok.lit 'm'], true⟩ := by
    decide
  have hdot : S ".example.com" = '.' :: S "example.com" := by decide
  have happ : srcTest (S "(?:^|\\.)example\\.com$") (sub ++ S ".example.com") = true := by
    refine srcTest_bndry _ _ hre rfl rfl _ ?_
    rw [hdot]
    exact srchB_append_dot _ _ _ (by decide)
  have h0 : condMatch (Cond.hostWildcard (S "*.example.com"))
      ⟨url, sub ++ S ".example.com", scheme⟩ 0 0
      = some (altTest (hostWildcardSrcs (S "*.example.com")) (sub ++ S ".example.com")) := rfl
  have h1 : altTest (hostWildcardSrcs (S "*.example.com")) (sub ++ S ".example.com")
      = (srcTest (S "(?:^|\\.)example\\.com$") (sub ++ S ".example.com") || false) := by
    rw [hsrcs]
    rfl
  rw [h0, h1, happ]
  rfl

/-- Helper for C5: the two-accumulator line fold splits into the exclusion
rules and the normal rules of the line list. -/
theorem autoProxy_foldl_split (m d : Str) (lines : List Str)
    (acc : List ParsedRule × List ParsedRule) :
    lines.foldl
      (fun (acc : List ParsedRule × List ParsedRule) line =>
        match autoProxyRuleOfLine m d line with
        | none => acc
        | some (true, rule) => (acc.1 ++ [rule], acc.2)
        | some (false, rule) => (acc.1, acc.2 ++ [rule])) acc =
    (acc.1 ++ lines.filterMap (fun l =>
        match autoProxyRuleOfLine m d l with
        | some (true, r) => some r
        | _ => none),
     acc.2 ++ lines.filterMap (fun l =>
        match autoProxyRuleOfLine m d l with
        | some (false, r) => some r
        | _ => none)) := by
  induction lines generalizing acc with
  | nil => simp
  | cons l t ih =>
    simp only [List.foldl_cons, List.filterMap_cons]
    cases h : autoProxyRuleOfLine m d l with
    | none => simp only [h]; rw [ih]
    | some pr =>
      obtain ⟨flag, rule⟩ := pr
      cases flag
      · simp only [h]
        rw [ih]
        simp [List.append_assoc]
      · simp only [h]
        rw [ih]
        simp [List.append_assoc]

/-- Helper for C5: a line classified as an exclusion yields a rule whose
target is the default profile and whose source keeps the double-at marker. -/
theorem autoProxy_exclusion_rule (m d l : Str) (r : ParsedRule)
    (h : autoProxyRuleOfLine m d l = some (true, r)) :
    r.profileName = d ∧ exclusionSrc r = true := by
  by_cases hskip : l = [] ∨ l.head? = some '!' ∨ l.head? = some '['
  · simp [autoProxyRuleOfLine, hskip] at h
  · simp only [autoProxyRuleOfLine, if_neg hskip, Option.some.injEq, Prod.mk.injEq] at h
    obtain ⟨hflag, hr⟩ := h
    subst hr
    constructor
    · simp [← hflag]
    · simp [exclusionSrc, ← hflag]

/-- Helper for C5: a line classified as normal yields a rule whose source
does not carry the double-at marker. -/
theorem autoProxy_normal_rule (m d l : Str) (r : ParsedRule)
    (h : autoProxyRuleOfLine m d l = some (false, r)) :
    exclusionSrc r = false := by
  by_cases hskip : l = [] ∨ l.head? = some '!' ∨ l.head? = some '['
  · simp [autoProxyRuleOfLine, hskip] at h
  · simp only [autoProxyRuleOfLine, if_neg hskip, Option.some.injEq, Prod.mk.injEq] at h
    obtain ⟨hflag, hr⟩ := h
    subst hr
    simp [exclusionSrc, ← hflag]

/-- Helper for C5: the parse output is the exclusion rules followed by the
normal rules. -/
theorem autoProxyParse_eq_parts (text m d : Str) :
    autoProxyParse text m d =
    ((splitLines text).map jsTrim).filterMap (fun l =>
        match autoProxyRuleOfLine m d l with
        | some (true, r) => some r
        | _ => none) ++
    ((splitLines text).map jsTrim).filterMap (fun l =>
        match autoProxyRuleOfLine m d l with
        | some (false, r) => some r
        | _ => none) := by
  show (let lines := List.map jsTrim (splitLines text);
    let acc := List.foldl
        (fun (acc : List ParsedRule × List ParsedRule) line =>
          match autoProxyRuleOfLine m d line with
          | none => acc
          | some (true, rule) => (acc.1 ++ [rule], acc.2)
          | some (false, rule) => (acc.1, acc.2 ++ [rule]))
        ([], []) lines;
    acc.1 ++ acc.2) = _
  simp only []
  rw [autoProxy_foldl_split]
  simp

/-- C5: every double-at line of an AutoProxy list yields a rule targeting
the default profile, in the output all such exclusion rules come before
every normal rule (once the leading run of exclusion rules is dropped, no
exclusion rule remains), and the two orderings of the concrete
spec example parse to the exclusion-first rule list. -/
theorem autoProxy_exclusions_spec (text m d : Str) :
    (∀ r ∈ autoProxyParse text m d, exclusionSrc r = true → r.profileName = d) ∧
    (∀ r ∈ (autoProxyParse text m d).dropWhile exclusionSrc, exclusionSrc r = false) ∧
    autoProxyParse (S "@@||example.com\n||blocked.com") (S "proxy") (S "direct") =
      [{ condition := Cond.hostWildcard (S "*.example.com"), profileName := S "direct",
         source := some (S "@@||example.com") },
       { condition := Cond.hostWildcard (S "*.blocked.com"), profileName := S "proxy",
         source := some (S "||blocked.com") }] ∧
    autoProxyParse (S "||blocked.com\n@@||example.com") (S "proxy") (S "direct") =
      [{ condition := Cond.hostWildcard (S "*.example.com"), profileName := S "direct",
         source := some (S "@@||example.com") },
       { condition := Cond.hostWildcard (S "*.blocked.com"), profileName := S "proxy",
         source := some (S "||blocked.com") }] := by
  refine ⟨?_, ?_, by decide, by decide⟩
  · intro r hr hex
    rw [autoProxyParse_eq_parts] at hr
    rcases List.mem_append.mp hr with hmem | hmem
    · obtain ⟨l, _, hl⟩ := List.mem_filterMap.mp hmem
      rcases hcls : autoProxyRuleOfLine m d l with _ | ⟨flag, rule⟩ <;> rw [hcls] at hl
      · simp at hl
      · cases flag
        · simp at hl
        · cases hl
          exact (autoProxy_exclusion_rule m d l r hcls).1
    · obtain ⟨l, _, hl⟩ := List.mem_filterMap.mp hmem
      rcases hcls : autoProxyRuleOfLine m d l with _ | ⟨flag, rule⟩ <;> rw [hcls] at hl
      · simp at hl
      · cases flag
        · cases hl
          rw [autoProxy_normal_rule m d l r hcls] at hex
          cases hex
        · simp at hl
  · intro r hr
    rw [autoProxyParse_eq_parts] at hr
    have hall : ∀ x ∈ ((splitLines text).map jsTrim).filterMap (fun l =>
        match autoProxyRuleOfLine m d l with
        | some (true, rr) => some rr
        | _ => none), exclusionSrc x = true := by
      intro x hx
      obtain ⟨l, _, hl⟩ := List.mem_filterMap.mp hx
      rcases hcls : autoProxyRuleOfLine m d l with _ | ⟨flag, rule⟩ <;> rw [hcls] at hl
      · simp at hl
      · cases flag
        · simp at hl
        · cases hl
          exact (autoProxy_exclusion_rule m d l x hcls).2
    rw [List.dropWhile_append] at hr
    rw [List.dropWhile_eq_nil_iff.mpr (fun x hx => hall x hx)] at hr
    simp only [List.isEmpty_nil, if_true] at hr
    have hnorm := List.dropWhile_sublist (p := exclusionSrc)
      (l := ((splitLines text).map jsTrim).filterMap (fun l =>
        match autoProxyRuleOfLine m d l with
        | some (false, rr) => some rr
        | _ => none))
    have hmem := hnorm.mem hr
    obtain ⟨l, _, hl⟩ := List.mem_filterMap.mp hmem
    rcases hcls : autoProxyRuleOfLine m d l with _ | ⟨flag, rule⟩ <;> rw [hcls] at hl
    · simp at hl
    · cases flag
      · cases hl
        exact autoProxy_normal_rule m d l r hcls
      · simp at hl

/-- Witness for C5: the exclusion rule of the concrete example targets the
default profile. -/
theorem autoProxy_exclusions_spec_witness :
    ({ condition := Cond.hostWildcard (S "*.example.com"), profileName := S "direct",
       source := some (S "@@||example.com") } : ParsedRule).profileName = S "direct" :=
  (autoProxy_exclusions_spec (S "@@||example.com") (S "proxy") (S "direct")).1 _
    (by decide) (by decide)

/-- Helper for C6: when no bypass condition raises, the in-order scan is the
first-match search. -/
theorem firstMatchBy_eq_find (r : Request) (day hour : Int) (l : List Cond)
    (hs : ∀ c ∈ l, (condMatch c r day hour).isSome) :
    firstMatchBy id r day hour l =
      some (l.find? (fun c => decide (condMatch c r day hour = some true))) := by
  induction l with
  | nil => rfl
  | cons c t ih =>
    have hc := hs c (List.mem_cons_self c t)
    cases hm : condMatch c r day hour with
    | none => rw [hm] at hc; simp at hc
    | some b =>
      cases b
      · rw [List.find?_cons_of_neg _ (by simp [hm])]
        simp only [firstMatchBy, id, hm]
        exact ih (fun x hx => hs x (List.mem_cons_of_mem c hx))
      · rw [List.find?_cons_of_pos _ (by simp [hm])]
        simp only [firstMatchBy, id, hm]

/-- C6: provided no bypass condition raises during analysis, matching a
fixed profile returns a direct result for the first matching bypass
condition; otherwise the proxy configured for the request scheme; otherwise
the fallback proxy — exactly the result described by the claim. -/
theorem fixedProfile_match_spec (name : Str) (bypassList : List Cond)
    (pHttp pHttps pFtp pFall : Option Proxy) (r : Request) (day hour : Int)
    (hsafe : ∀ c ∈ bypassList, (condMatch c r day hour).isSome) :
    profileMatch (ProfileV.fixed name bypassList pHttp pHttps pFtp pFall) r day hour =
      some (some (fixedSpecResult bypassList pHttp pHttps pFtp pFall r day hour)) := by
  simp only [profileMatch]
  rw [firstMatchBy_eq_find r day hour bypassList hsafe]
  cases hf : bypassList.find? (fun c => decide (condMatch c r day hour = some true)) with
  | some c => simp [fixedSpecResult, hf, pacResult]
  | none =>
    simp only [fixedSpecResult, hf]
    have nHsH : ¬ (S "https" = S "http") := by decide
    have nFH : ¬ (S "ftp" = S "http") := by decide
    have nEH : ¬ (([] : Str) = S "http") := by decide
    have nHHs : ¬ (S "http" = S "https") := by decide
    have nFHs : ¬ (S "ftp" = S "https") := by decide
    have nEHs : ¬ (([] : Str) = S "https") := by decide
    have nHF : ¬ (S "http" = S "ftp") := by decide
    have nHsF : ¬ (S "https" = S "ftp") := by decide
    have nEF : ¬ (([] : Str) = S "ftp") := by decide
    have nHE : ¬ (S "http" = ([] : Str)) := by decide
    have nHsE : ¬ (S "https" = ([] : Str)) := by decide
    have nFE : ¬ (S "ftp" = ([] : Str)) := by decide
    by_cases h1 : r.scheme = S "http"
    · rw [h1]
      cases hp : pHttp <;>
        cases hq : pFall <;>
          simp [schemeProxyOf, List.find?, hp, hq, nHsH, nFH, nEH, nHHs, nHF, nHE]
    · by_cases h2 : r.scheme = S "https"
      · rw [h2]
        cases hp : pHttps <;>
          cases hq : pFall <;>
            simp [schemeProxyOf, List.find?, hp, hq, nHsH, nFHs, nEHs, nHHs, nHsF, nHsE]
      · by_cases h3 : r.scheme = S "ftp"
        · rw [h3]
          cases hp : pFtp <;>
            cases hq : pFall <;>
              simp [schemeProxyOf, List.find?, hp, hq, nHF, nHsF, nEF, nFH, nFHs, nFE]
        · by_cases h4 : r.scheme = []
          · rw [h4]
            cases hq : pFall <;>
              simp [schemeProxyOf, List.find?, hq, nHE, nHsE, nFE, nEH, nEHs, nEF]
          · cases hq : pFall <;>
              simp [schemeProxyOf, List.find?, hq, Ne.symm h1, Ne.symm h2, Ne.symm h3,
                Ne.symm h4, h1, h2, h3, h4]

/-- Witness for C6 on a concrete fixed profile, bypassed request and
proxied request. -/
theorem fixedProfile_match_spec_witness :
    profileMatch (ProfileV.fixed (S "t") [Cond.bypassC (S "127.0.0.1")] none none none
        (some ⟨S "http", S "proxy.com", 8080⟩))
      ⟨S "http://example.com/", S "example.com", S "http"⟩ 0 0 =
      some (some (fixedSpecResult [Cond.bypassC (S "127.0.0.1")] none none none
        (some ⟨S "http", S "proxy.com", 8080⟩)
        ⟨S "http://example.com/", S "example.com", S "http"⟩ 0 0)) :=
  fixedProfile_match_spec (S "t") _ none none none _ _ 0 0 (by decide)

/-- Helper: a list is a prefix of itself followed by anything. -/
theorem isPrefixOf_append_self (n b : Str) : n.isPrefixOf (n ++ b) = true := by
  induction n with
  | nil => cases b <;> rfl
  | cons c t ih => simp [List.isPrefixOf, ih]

/-- Helper for C8: the substring test survives prepending. -/
theorem hasSub_append_left (n t : Str) (h : hasSub n t = true) (a : Str) :
    hasSub n (a ++ t) = true := by
  induction a with
  | nil => simpa
  | cons c r ih =>
    simp only [List.cons_append, hasSub, findSub, List.append_eq]
    by_cases hp : List.isPrefixOf n (c :: (r ++ t)) = true
    · simp [hp]
    · simp only [if_neg hp]
      simp only [hasSub] at ih
      cases hfs : findSub n (r ++ t) with
      | none => rw [hfs] at ih; simp at ih
      | some i => simp [hfs]

/-- Helper for C8: the substring test succeeds at the front. -/
theorem hasSub_self (n b : Str) : hasSub n (n ++ b) = true := by
  cases n with
  | nil =>
    cases hb : [] ++ b with
    | nil => rfl
    | cons c t => simp [hasSub, findSub]
  | cons c t =>
    have hpre := isPrefixOf_append_self (c :: t) b
    rw [List.cons_append] at hpre
    simp [hasSub, findSub, hpre]

/-- Helper for C8: outside the builtin names, resolution goes straight to
the user collection. -/
theorem byName_not_builtin (n : Str) (options : List (Str × ProfileV))
    (hn1 : n ≠ S "direct") (hn2 : n ≠ S "system") :
    byName n options = lookupRec options (nameAsKey n) := by
  have k1 : S "+direct" = '+' :: S "direct" := by decide
  have k2 : S "+system" = '+' :: S "system" := by decide
  have d1 : (decide ('+' :: S "direct" = '+' :: n)) = false := by
    simp [Ne.symm hn1]
  have d2 : (decide ('+' :: S "system" = '+' :: n)) = false := by
    simp [Ne.symm hn2]
  simp only [byName, lookupRec, builtinProfiles, List.find?, nameAsKey, k1, k2, d1, d2,
    Option.map_none']

/-- Helper for C8: lookup steps through a collection keyed by plus-prefixed
names. -/
theorem lookupRec_keyed (e n : Str) (p : ProfileV) (rest : List (Str × ProfileV)) :
    lookupRec ((nameAsKey e, p) :: rest) (nameAsKey n) =
      if e = n then some p else lookupRec rest (nameAsKey n) := by
  by_cases he : e = n
  · subst he
    simp [lookupRec, List.find?]
  · rw [if_neg he]
    simp only [lookupRec, List.find?_cons]
    have hd : (decide ((nameAsKey e, p).1 = nameAsKey n)) = false := by
      simp [nameAsKey, he]
    rw [hd]

/-- C8: generating for an entry switch profile whose default target (either
directly, or transitively through a middle switch profile) is absent from
the collection completes, and the produced script text contains the
function definition for the missing name whose body unconditionally returns
DIRECT.  The statement holds for an arbitrary condition compiler. -/
theorem pacGenerate_missing_stub (compileCond : Cond → Str) (e mid m : Str)
    (he1 : e ≠ S "direct") (he2 : e ≠ S "system")
    (hm1 : m ≠ S "direct") (hm2 : m ≠ S "system")
    (hmid1 : mid ≠ S "direct") (hmid2 : mid ≠ S "system")
    (hme : m ≠ e) (hmide : mid ≠ e) (hmmid : m ≠ mid) :
    (pacGenerate 3 compileCond (singleSwitchOptions e m) false (S "\n") e).map
      (fun s => hasSub (generateNotFoundFunction false (S "\n") m) s) = some true ∧
    (pacGenerate 3 compileCond (chainSwitchOptions e mid m) false (S "\n") e).map
      (fun s => hasSub (generateNotFoundFunction false (S "\n") m) s) = some true := by
  have hbe : byName e (singleSwitchOptions e m) = some (ProfileV.switchP e false m []) := by
    rw [byName_not_builtin e _ he1 he2, singleSwitchOptions, lookupRec_keyed, if_pos rfl]
  have hbm : byName m (singleSwitchOptions e m) = none := by
    rw [byName_not_builtin m _ hm1 hm2, singleSwitchOptions, lookupRec_keyed,
      if_neg (Ne.symm hme)]
    rfl
  have hce : byName e (chainSwitchOptions e mid m) = some (ProfileV.switchP e false mid []) := by
    rw [byName_not_builtin e _ he1 he2, chainSwitchOptions, lookupRec_keyed, if_pos rfl]
  have hcmid : byName mid (chainSwitchOptions e mid m) =
      some (ProfileV.switchP mid false m []) := by
    rw [byName_not_builtin mid _ hmid1 hmid2, chainSwitchOptions, lookupRec_keyed,
      if_neg (Ne.symm hmide), lookupRec_keyed, if_pos rfl]
  have hcm : byName m (chainSwitchOptions e mid m) = none := by
    rw [byName_not_builtin m _ hm1 hm2, chainSwitchOptions, lookupRec_keyed,
      if_neg (Ne.symm hme), lookupRec_keyed, if_neg (Ne.symm hmmid)]
    rfl
  have hdref : ∀ nm vr dn, recValues (directReferenceSet (ProfileV.switchP nm vr dn [])) =
      [dn] := by
    intro nm vr dn
    simp [directReferenceSet, recUpdate, recValues]
  have hrefs1 : allRefsF 3 e (singleSwitchOptions e m)
      (fun nm => some (ProfileV.direct nm)) [] =
      some [(nameAsKey e, e), (nameAsKey m, m)] := by
    simp only [allRefsF, hbe, hdref, List.foldlM]
    simp only [allRefsF, hbm]
    simp [recUpdate, pName, nameAsKey, hme, Ne.symm hme]
  have hrefs2 : allRefsF 3 e (chainSwitchOptions e mid m)
      (fun nm => some (ProfileV.direct nm)) [] =
      some [(nameAsKey e, e), (nameAsKey mid, mid), (nameAsKey m, m)] := by
    simp only [allRefsF, hce, hdref, List.foldlM]
    simp only [allRefsF, hcmid, hdref, List.foldlM]
    simp only [allRefsF, hcm]
    simp [recUpdate, pName, nameAsKey, hmide, Ne.symm hmide, hmmid, Ne.symm hmmid,
      hme, Ne.symm hme]
  constructor
  · rw [pacGenerate, hrefs1]
    simp only [Option.map_some', recValues, List.map_cons, List.map_nil]
    rw [if_neg (by simp [hbe] : ¬ (byName e (singleSwitchOptions e m) = none)), if_pos hbm]
    refine congrArg some ?_
    simp only [joinSep, List.append_assoc]
    exact hasSub_append_left _ _ (hasSub_append_left _ _ (hasSub_append_left _ _
      (hasSub_self _ _) _) _) _
  · rw [pacGenerate, hrefs2]
    simp only [Option.map_some', recValues, List.map_cons, List.map_nil]
    rw [if_neg (by simp [hce] : ¬ (byName e (chainSwitchOptions e mid m) = none)),
      if_neg (by simp [hcmid] : ¬ (byName mid (chainSwitchOptions e mid m) = none)),
      if_pos hcm]
    refine congrArg some ?_
    simp only [joinSep, List.append_assoc]
    exact hasSub_append_left _ _ (hasSub_append_left _ _ (hasSub_append_left _ _
      (hasSub_append_left _ _ (hasSub_append_left _ _ (hasSub_append_left _ _
        (hasSub_self _ _) _) _) _) _) _) _

/-- Witness for C8 at concrete profile names and a trivial compiler. -/
theorem pacGenerate_missing_stub_witness :
    (pacGenerate 3 (fun _ => S "false") (singleSwitchOptions (S "auto") (S "nosuch")) false
        (S "\n") (S "auto")).map
      (fun s => hasSub (generateNotFoundFunction false (S "\n") (S "nosuch")) s) = some true ∧
    (pacGenerate 3 (fun _ => S "false") (chainSwitchOptions (S "auto") (S "mid") (S "nosuch"))
        false (S "\n") (S "auto")).map
      (fun s => hasSub (generateNotFoundFunction false (S "\n") (S "nosuch")) s) = some true :=
  pacGenerate_missing_stub (fun _ => S "false") (S "auto") (S "mid") (S "nosuch")
    (by decide) (by decide) (by decide) (by decide) (by decide) (by decide)
    (by decide) (by decide) (by decide)

/-- Helper: a decimal digit character is nothing a serialization separator
or trim could confuse it with. -/
theorem digit_char_facts (c : Char) (h : c.isDigit = true) :
    wsChar c = false ∧ c ≠ '-' ∧ c ≠ '+' ∧ c ≠ '~' ∧ c ≠ '/' ∧ c ≠ '$' ∧ c ≠ ':' := by
  simp [Char.isDigit] at h
  obtain ⟨h1, h2⟩ := h
  have hval : 48 ≤ c.toNat ∧ c.toNat ≤ 57 := ⟨h1, h2⟩
  refine ⟨?_, ?_, ?_, ?_, ?_, ?_, ?_⟩
  · simp only [wsChar, Bool.or_eq_false_iff, decide_eq_false_iff_not]
    refine ⟨⟨⟨⟨⟨⟨?_, ?_⟩, ?_⟩, ?_⟩, ?_⟩, ?_⟩, ?_⟩ <;>
      (intro he; subst he; simp at hval)
  all_goals (intro he; subst he; simp at hval)

/-- Helper: a string whose first and last characters are not whitespace is
unchanged by the trim. -/
theorem jsTrim_eq_self_of_ends (l : Str)
    (hh : ∀ c, l.head? = some c → wsChar c = false)
    (hl : ∀ c, l.getLast? = some c → wsChar c = false) : jsTrim l = l := by
  have hdrop : l.dropWhile wsChar = l := by
    cases l with
    | nil => rfl
    | cons c t => simp [List.dropWhile_cons, hh c rfl]
  have hrev : l.reverse.dropWhile wsChar = l.reverse := by
    cases hr : l.reverse with
    | nil => rfl
    | cons c t =>
      have hc : l.getLast? = some c := by
        rw [show l.getLast? = l.reverse.head? from (List.head?_reverse l).symm, hr]
        rfl
      simp [List.dropWhile_cons, hl c hc]
  simp [jsTrim, jsTrimRight, hdrop, hrev]

/-- Helper: a trim-stable string does not begin with whitespace. -/
theorem head_not_ws_of_jsTrim (l : Str) (h : jsTrim l = l) :
    ∀ c, l.head? = some c → wsChar c = false := by
  intro c hc
  by_contra hw
  simp only [Bool.not_eq_false] at hw
  cases l with
  | nil => simp at hc
  | cons c0 t =>
    have hc0 : c0 = c := by simpa using hc
    subst hc0
    have hlen : (jsTrim (c0 :: t)).length ≤ t.length := by
      simp only [jsTrim, List.dropWhile_cons, hw, if_true, jsTrimRight]
      calc ((t.dropWhile wsChar).reverse.dropWhile wsChar).reverse.length
          ≤ (t.dropWhile wsChar).reverse.length := by
            simpa using (List.dropWhile_suffix wsChar
              (l := (t.dropWhile wsChar).reverse)).length_le
        _ ≤ t.length := by
            simpa using (List.dropWhile_suffix wsChar (l := t)).length_le
    rw [h] at hlen
    simp at hlen

/-- Helper: a trim-stable string does not end with whitespace. -/
theorem getLast_not_ws_of_jsTrim (l : Str) (h : jsTrim l = l) :
    ∀ c, l.getLast? = some c → wsChar c = false := by
  intro c hc
  by_contra hw
  simp only [Bool.not_eq_false] at hw
  have hne : l ≠ [] := by
    intro he; subst he; simp at hc
  have hlen : (jsTrim l).length < l.length := by
    simp only [jsTrim, jsTrimRight]
    cases hm : l.dropWhile wsChar with
    | nil =>
      simp only [List.reverse_nil, List.dropWhile_nil]
      exact List.length_pos.mpr hne
    | cons m0 mt =>
      have hsuf : ∃ pre, pre ++ (m0 :: mt) = l := by
        have := List.dropWhile_suffix wsChar (l := l)
        rw [hm] at this
        exact this
      obtain ⟨pre, hpre⟩ := hsuf
      have hlast : (m0 :: mt).getLast? = some c := by
        rw [← hpre] at hc
        rwa [List.getLast?_append, show (m0 :: mt).getLast?.or pre.getLast? =
          (m0 :: mt).getLast? from ?_] at hc
        · cases hgl : (m0 :: mt).getLast? with
          | none => exact absurd (List.getLast?_eq_none_iff.mp hgl) (by simp)
          | some d => rfl
      have hrh : (m0 :: mt).reverse.head? = some c := by
        rw [List.head?_reverse]; exact hlast
      have hshrink : ((m0 :: mt).reverse.dropWhile wsChar).length < (m0 :: mt).length := by
        cases hrv : (m0 :: mt).reverse with
        | nil => simp at hrv
        | cons r0 rt =>
          have hr0 : r0 = c := by rw [hrv] at hrh; simpa using hrh
          subst hr0
          simp only [List.dropWhile_cons, hw, if_true]
          have h1 : (rt.dropWhile wsChar).length ≤ rt.length :=
            by simpa using (List.dropWhile_suffix wsChar (l := rt)).length_le
          have h2 : (r0 :: rt).length = (m0 :: mt).length := by
            rw [← hrv]; simp
          simp at h2
          simp
          omega
      have hmlen : (m0 :: mt).length ≤ l.length := by
        rw [← hpre]; simp
      calc ((m0 :: mt).reverse.dropWhile wsChar).reverse.length
          = ((m0 :: mt).reverse.dropWhile wsChar).length := by simp
        _ < (m0 :: mt).length := hshrink
        _ ≤ l.length := hmlen
  rw [h] at hlen
  omega

/-- Helper: a character that occurs nowhere has no index. -/
theorem indexOfChar_eq_none (k : Char) (l : Str) (h : k ∉ l) : indexOfChar k l = none := by
  induction l with
  | nil => rfl
  | cons c t ih =>
    have hck : c ≠ k := fun he => h (he ▸ List.mem_cons_self c t)
    simp only [indexOfChar, if_neg hck, ih (fun hm => h (List.mem_cons_of_mem c hm))]
    rfl

/-- Helper: the first occurrence of the separator after a separator-free
prefix is at the prefix length. -/
theorem indexOfChar_append_sep (k : Char) (a b : Str) (h : k ∉ a) :
    indexOfChar k (a ++ k :: b) = some a.length := by
  induction a with
  | nil => simp [indexOfChar]
  | cons c t ih =>
    have hck : c ≠ k := fun he => h (he ▸ List.mem_cons_self c t)
    simp only [List.cons_append, indexOfChar, if_neg hck, List.append_eq,
      ih (fun hm => h (List.mem_cons_of_mem c hm))]
    rfl

/-- Helper: reading just past a prefix of an append. -/
theorem get?_append_length (a b : Str) : (a ++ b).get? a.length = b.head? := by
  induction a with
  | nil => cases b <;> rfl
  | cons c t ih => simpa using ih

/-- Helper: the character split of a separator-free string is a singleton. -/
theorem splitOnChar_no_sep (k : Char) (l : Str) (h : k ∉ l) : splitOnChar k l = [l] := by
  induction l with
  | nil => rfl
  | cons c t ih =>
    have hck : c ≠ k := fun he => h (he ▸ List.mem_cons_self c t)
    simp only [splitOnChar, ih (fun hm => h (List.mem_cons_of_mem c hm))]
    simp [hck]

/-- Helper: the character split never returns the empty list. -/
theorem splitOnChar_ne_nil (k : Char) (l : Str) : splitOnChar k l ≠ [] := by
  induction l with
  | nil => simp [splitOnChar]
  | cons c t ih =>
    simp only [splitOnChar]
    cases hs : splitOnChar k t with
    | nil => exact absurd hs ih
    | cons h2 r2 => by_cases hck : c = k <;> simp [hck]

/-- Helper: the character split peels a separator-free prefix. -/
theorem splitOnChar_append_sep (k : Char) (a b : Str) (ha : k ∉ a) :
    splitOnChar k (a ++ k :: b) = a :: splitOnChar k b := by
  induction a with
  | nil =>
    simp only [List.nil_append, splitOnChar]
    cases hs : splitOnChar k b with
    | nil => exact absurd hs (splitOnChar_ne_nil k b)
    | cons h2 r2 => simp
  | cons c t ih =>
    have hck : c ≠ k := fun he => ha (he ▸ List.mem_cons_self c t)
    simp only [List.cons_append, splitOnChar, List.append_eq,
      ih (fun hm => ha (List.mem_cons_of_mem c hm))]
    simp [hck]

/-- Helper: the code of a digit character produced from a value below ten. -/
theorem toNat_ofNat_digit (n : Nat) (h : n < 10) : (Char.ofNat (48 + n)).toNat = 48 + n := by
  have hval : (48 + n).isValidChar := by
    left
    omega
  simp [Char.ofNat, Char.toNat, hval, Char.ofNatAux, UInt32.toNat, UInt32.ofNatCore,
    BitVec.toNat_ofNat]

/-- Helper: a digit character produced from a value below ten. -/
theorem ofNat_digit_isDigit (n : Nat) (h : n < 10) : (Char.ofNat (48 + n)).isDigit = true := by
  have ht := toNat_ofNat_digit n h
  simp only [Char.toNat, UInt32.toNat] at ht
  simp [Char.isDigit, UInt32.le_def, BitVec.le_def, ht]
  omega

/-- Helper: the numeric value of a digit character produced from a value
below ten. -/
theorem digitVal_ofNat (n : Nat) (h : n < 10) : digitVal (Char.ofNat (48 + n)) = n := by
  simp [digitVal, toNat_ofNat_digit n h]

/-- Helper: the fuelled digit writer emits a non-empty block of decimal
digits before its accumulator, and folding the block restores the number. -/
theorem natToStrGo_spec (fuel : Nat) : ∀ n acc, n < fuel →
    ∃ d, natToStrGo fuel n acc = d ++ acc ∧ d ≠ [] ∧ (∀ c ∈ d, c.isDigit = true) ∧
      ∀ a : Nat, d.foldl (fun x c => 10 * x + digitVal c) a = a * 10 ^ d.length + n := by
  induction fuel with
  | zero => intro n acc h; omega
  | succ f ih =>
    intro n acc h
    by_cases hn : n < 10
    · refine ⟨[Char.ofNat (48 + n)], ?_, by simp, ?_, ?_⟩
      · simp [natToStrGo, hn]
      · intro c hc
        rw [List.mem_singleton] at hc
        subst hc
        exact ofNat_digit_isDigit n hn
      · intro a
        simp [List.foldl, digitVal_ofNat n hn]
        ring
    · have hrec : n / 10 < f := by omega
      obtain ⟨d, hd, hdne, hdig, hval⟩ := ih (n / 10) (Char.ofNat (48 + n % 10) :: acc) hrec
      refine ⟨d ++ [Char.ofNat (48 + n % 10)], ?_, by simp, ?_, ?_⟩
      · simp only [natToStrGo, if_neg hn, hd, List.append_assoc, List.singleton_append]
      · intro c hc
        rcases List.mem_append.mp hc with hcd | hcl
        · exact hdig c hcd
        · rw [List.mem_singleton] at hcl
          subst hcl
          exact ofNat_digit_isDigit (n % 10) (Nat.mod_lt n (by omega))
      · intro a
        rw [List.foldl_append, hval a]
        simp [List.foldl, digitVal_ofNat (n % 10) (Nat.mod_lt n (by omega))]
        rw [Nat.pow_succ]
        have := Nat.div_add_mod n 10
        ring_nf
        omega

/-- Helper: the decimal writer for naturals is non-empty, all digits, and
read back by the decimal reader. -/
theorem natToStr_spec (n : Nat) : natToStr n ≠ [] ∧ (∀ c ∈ natToStr n, c.isDigit = true) ∧
    decValue (natToStr n) = n := by
  obtain ⟨d, hd, hdne, hdig, hval⟩ := natToStrGo_spec (n + 1) n [] (by omega)
  rw [natToStr, hd, List.append_nil]
  refine ⟨hdne, hdig, ?_⟩
  have := hval 0
  simpa [decValue] using this

/-- Helper: last element of an append with a non-empty right part. -/
theorem getLast?_append_ne (a b : Str) (h : b ≠ []) : (a ++ b).getLast? = b.getLast? := by
  rw [List.getLast?_append]
  cases hb : b.getLast? with
  | none => exact absurd (List.getLast?_eq_none_iff.mp hb) h
  | some c => rfl

/-- Helper: head of an append with a non-empty left part. -/
theorem head?_append_ne (a b : Str) (h : a ≠ []) : (a ++ b).head? = a.head? := by
  cases a with
  | nil => exact absurd rfl h
  | cons c t => rfl

/-- Helper: membership from the last-element view. -/
theorem mem_of_getLast?_eq (l : Str) (c : Char) (h : l.getLast? = some c) : c ∈ l := by
  have hm := List.mem_of_mem_head? (l := l.reverse) (a := c)
    (by rw [List.head?_reverse]; exact h)
  simpa using hm

/-- Helper: a non-empty list has a last element. -/
theorem exists_getLast?_eq (l : Str) (h : l ≠ []) : ∃ c, l.getLast? = some c := by
  cases hg : l.getLast? with
  | none => exact absurd (List.getLast?_eq_none_iff.mp hg) h
  | some c => exact ⟨c, rfl⟩

/-- Helper: every character of an integer's decimal form is a digit or the
sign. -/
theorem intToStr_chars (v : Int) : intToStr v ≠ [] ∧
    ∀ c ∈ intToStr v, c.isDigit = true ∨ c = '-' := by
  by_cases hv : v < 0 <;> simp only [intToStr, hv, if_true, if_false, reduceIte]
  · refine ⟨by simp, ?_⟩
    intro c hc
    rcases List.mem_cons.mp hc with hs | hm
    · exact Or.inr hs
    · exact Or.inl ((natToStr_spec v.natAbs).2.1 c hm)
  · exact ⟨(natToStr_spec v.toNat).1, fun c hc => Or.inl ((natToStr_spec v.toNat).2.1 c hc)⟩

/-- Helper: an integer's decimal form is stable under trimming. -/
theorem jsTrim_intToStr (v : Int) : jsTrim (intToStr v) = intToStr v := by
  obtain ⟨hne, hchars⟩ := intToStr_chars v
  have hnws : ∀ c ∈ intToStr v, wsChar c = false := by
    intro c hc
    rcases hchars c hc with hd | hs
    · exact (digit_char_facts c hd).1
    · subst hs
      decide
  exact jsTrim_eq_self_of_ends _
    (fun c hc => hnws c (List.mem_of_mem_head? hc))
    (fun c hc => hnws c (mem_of_getLast?_eq _ c hc))

/-- Helper: the decimal form of an integer ends in a digit. -/
theorem intToStr_last_digit (v : Int) :
    ∃ c, (intToStr v).getLast? = some c ∧ c.isDigit = true := by
  by_cases hv : v < 0 <;> simp only [intToStr, hv, if_true, if_false, reduceIte]
  · obtain ⟨hne, hdig, _⟩ := natToStr_spec v.natAbs
    obtain ⟨c, hc⟩ := exists_getLast?_eq _ hne
    refine ⟨c, ?_, hdig c (mem_of_getLast?_eq _ c hc)⟩
    rw [show ('-' :: natToStr v.natAbs) = ['-'] ++ natToStr v.natAbs from rfl,
      getLast?_append_ne _ _ hne]
    exact hc
  · obtain ⟨hne, hdig, _⟩ := natToStr_spec v.toNat
    obtain ⟨c, hc⟩ := exists_getLast?_eq _ hne
    exact ⟨c, hc, hdig c (mem_of_getLast?_eq _ c hc)⟩

/-- Helper: the decimal reader inverts the decimal writer on integers. -/
theorem parseIntJS_intToStr (v : Int) : parseIntJS (intToStr v) = some v := by
  by_cases hv : v < 0
  · have hform : intToStr v = '-' :: natToStr v.natAbs := by
      simp [intToStr, hv]
    obtain ⟨hne, hdig, hval⟩ := natToStr_spec v.natAbs
    rw [show parseIntJS (intToStr v) =
      (if (jsTrim (intToStr v)).head? = some '-' then
        (parseDigitsRun (jsTrim (intToStr v)).tail).map (fun n => -(n : Int))
      else if (jsTrim (intToStr v)).head? = some '+' then
        (parseDigitsRun (jsTrim (intToStr v)).tail).map (fun n => (n : Int))
      else (parseDigitsRun (jsTrim (intToStr v))).map (fun n => (n : Int))) from rfl]
    rw [jsTrim_intToStr v, hform]
    rw [if_pos (show ('-' :: natToStr v.natAbs).head? = some '-' from rfl)]
    simp only [List.tail_cons, parseDigitsRun]
    rw [List.takeWhile_eq_self_iff.mpr hdig, if_neg (by simpa using hne), hval]
    exact congrArg some (show -((v.natAbs : Nat) : Int) = v by omega)
  · have hform : intToStr v = natToStr v.toNat := by
      simp [intToStr, hv]
    obtain ⟨hne, hdig, hval⟩ := natToStr_spec v.toNat
    obtain ⟨c, hh⟩ : ∃ c, (natToStr v.toNat).head? = some c := by
      cases hn : natToStr v.toNat with
      | nil => exact absurd hn hne
      | cons c t => exact ⟨c, rfl⟩
    have hcd : c.isDigit = true := hdig c (List.mem_of_mem_head? hh)
    obtain ⟨_, _, hplus, _, _, _, _⟩ := digit_char_facts c hcd
    have hminus := (digit_char_facts c hcd).2.1
    rw [show parseIntJS (intToStr v) =
      (if (jsTrim (intToStr v)).head? = some '-' then
        (parseDigitsRun (jsTrim (intToStr v)).tail).map (fun n => -(n : Int))
      else if (jsTrim (intToStr v)).head? = some '+' then
        (parseDigitsRun (jsTrim (intToStr v)).tail).map (fun n => (n : Int))
      else (parseDigitsRun (jsTrim (intToStr v))).map (fun n => (n : Int))) from rfl]
    rw [jsTrim_intToStr v, hform]
    rw [if_neg (by rw [hh]; intro he; exact hminus (by injection he)),
      if_neg (by rw [hh]; intro he; exact hplus (by injection he))]
    simp only [parseDigitsRun]
    rw [List.takeWhile_eq_self_iff.mpr hdig, if_neg (by simpa using hne), hval]
    exact congrArg some (show ((v.toNat : Nat) : Int) = v by omega)

/-- Helper: the decimal writer is injective on integers. -/
theorem intToStr_inj (v w : Int) (h : intToStr v = intToStr w) : v = w := by
  have := congrArg parseIntJS h
  rw [parseIntJS_intToStr, parseIntJS_intToStr] at this
  injection this

/-- Helper: the serialized optional day field is injective. -/
theorem optIntStrJS_inj (o1 o2 : Option Int) (h : optIntStrJS o1 = optIntStrJS o2) :
    o1 = o2 := by
  have hund : ∀ v : Int, intToStr v ≠ S "undefined" := by
    intro v he
    have hu : 'u' ∈ intToStr v := by
      rw [he]
      decide
    rcases (intToStr_chars v).2 'u' hu with hd | hs
    · exact absurd hd (by decide)
    · exact absurd hs (by decide)
  cases o1 with
  | none =>
    cases o2 with
    | none => rfl
    | some w => exact absurd ((by simpa [optIntStrJS] using h.symm) : intToStr w = S "undefined") (hund w)
  | some v =>
    cases o2 with
    | none => exact absurd ((by simpa [optIntStrJS] using h) : intToStr v = S "undefined") (hund v)
    | some w => exact congrArg some (intToStr_inj v w (by simpa [optIntStrJS] using h))

/-- Helper: parsing a serialized typed condition with a non-empty payload
finds the abbreviation before the colon and hands the payload to the
per-type parser. -/
theorem condFromStr_typed_of (abbr part : Str)
    (ha : abbr ≠ []) (hb : abbr.all (fun c => !wsChar c) = true)
    (hp : part ≠ []) (ht : jsTrim part = part) :
    condFromStr (abbr ++ ':' :: ' ' :: part) =
      (typeFromAbbr abbr).map (fun t => buildCond t part) := by
  have hnws : ∀ c ∈ abbr, wsChar c = false := by
    intro c hc
    simpa using List.all_eq_true.mp hb c hc
  have hnsp : ' ' ∉ abbr := fun hm => absurd (hnws ' ' hm) (by decide)
  have htrim : jsTrim (abbr ++ ':' :: ' ' :: part) = abbr ++ ':' :: ' ' :: part := by
    apply jsTrim_eq_self_of_ends
    · intro c hc
      rw [head?_append_ne _ _ ha] at hc
      exact hnws c (List.mem_of_mem_head? hc)
    · intro c hc
      rw [getLast?_append_ne _ _ (by simp),
        show (':' :: ' ' :: part) = [':', ' '] ++ part from rfl,
        getLast?_append_ne _ _ hp] at hc
      exact getLast_not_ws_of_jsTrim part ht c hc
  have hidx : indexOfChar ' ' (abbr ++ ':' :: ' ' :: part) = some (abbr.length + 1) := by
    rw [show abbr ++ ':' :: ' ' :: part = (abbr ++ [':']) ++ ' ' :: part by simp]
    rw [indexOfChar_append_sep ' ' (abbr ++ [':']) part (by
      intro hm
      rcases List.mem_append.mp hm with h1 | h2
      · exact hnsp h1
      · simp at h2)]
    simp
  have hget : (abbr ++ ':' :: ' ' :: part).get? (abbr.length + 1 - 1) = some ':' := by
    simp only [Nat.add_sub_cancel]
    rw [get?_append_length abbr (':' :: ' ' :: part)]
    rfl
  rw [show condFromStr (abbr ++ ':' :: ' ' :: part) =
    (let s := jsTrim (abbr ++ ':' :: ' ' :: part);
     let i := (indexOfChar ' ' s).getD s.length;
     if 1 ≤ i ∧ s.get? (i - 1) = some ':' then
       (typeFromAbbr (s.take (i - 1))).map (fun t => buildCond t (jsTrim (s.drop (i + 1))))
     else (typeFromAbbr []).map (fun t => buildCond t s)) from rfl]
  simp only [htrim, hidx, Option.getD_some]
  rw [if_pos ⟨by omega, hget⟩]
  simp only [Nat.add_sub_cancel]
  rw [List.take_left]
  rw [show abbr ++ ':' :: ' ' :: part = (abbr ++ [':', ' ']) ++ part by simp,
    List.drop_left' (show (abbr ++ [':', ' ']).length = abbr.length + 1 + 1 by simp),
    ht]

/-- Helper: parsing a serialized typed condition with an empty payload. -/
theorem condFromStr_typed_nil (abbr : Str)
    (ha : abbr ≠ []) (hb : abbr.all (fun c => !wsChar c) = true) :
    condFromStr (abbr ++ [':']) = (typeFromAbbr abbr).map (fun t => buildCond t []) := by
  have hnws : ∀ c ∈ abbr, wsChar c = false := by
    intro c hc
    simpa using List.all_eq_true.mp hb c hc
  have hnsp : ' ' ∉ abbr := fun hm => absurd (hnws ' ' hm) (by decide)
  have htrim : jsTrim (abbr ++ [':']) = abbr ++ [':'] := by
    apply jsTrim_eq_self_of_ends
    · intro c hc
      rw [head?_append_ne _ _ ha] at hc
      exact hnws c (List.mem_of_mem_head? hc)
    · intro c hc
      rw [getLast?_append_ne _ _ (by simp)] at hc
      have : ':' = c := by simpa using hc
      subst this
      decide
  have hidx : indexOfChar ' ' (abbr ++ [':']) = none := by
    apply indexOfChar_eq_none
    intro hm
    rcases List.mem_append.mp hm with h1 | h2
    · exact hnsp h1
    · simp at h2
  have hget : (abbr ++ [':']).get? ((abbr ++ [':']).length - 1) = some ':' := by
    simp only [List.length_append, List.length_singleton, Nat.add_sub_cancel]
    rw [get?_append_length abbr [':']]
    rfl
  rw [show condFromStr (abbr ++ [':']) =
    (let s := jsTrim (abbr ++ [':']);
     let i := (indexOfChar ' ' s).getD s.length;
     if 1 ≤ i ∧ s.get? (i - 1) = some ':' then
       (typeFromAbbr (s.take (i - 1))).map (fun t => buildCond t (jsTrim (s.drop (i + 1))))
     else (typeFromAbbr []).map (fun t => buildCond t s)) from rfl]
  simp only [htrim, hidx, Option.getD_none]
  rw [if_pos ⟨by simp, hget⟩]
  have hlen : (abbr ++ [':']).length - 1 = abbr.length := by simp
  rw [hlen, List.take_left]
  have hdrop : (abbr ++ [':']).drop ((abbr ++ [':']).length + 1) = [] := by
    apply List.drop_eq_nil_of_le
    simp
  rw [hdrop]
  rfl

/-- Helper: a bare pattern with no space that does not end in a colon parses
as a host wildcard. -/
theorem condFromStr_bare (p : Str) (ht : jsTrim p = p)
    (hsp : ' ' ∉ p) (hc : p.getLast? ≠ some ':') :
    condFromStr p = some (Cond.hostWildcard p) := by
  have hidx : indexOfChar ' ' p = none := indexOfChar_eq_none ' ' p hsp
  have hguard : ¬ (1 ≤ p.length ∧ p.get? (p.length - 1) = some ':') := by
    rintro ⟨h1, h2⟩
    apply hc
    rw [List.getLast?_eq_getElem?, ← List.get?_eq_getElem?]
    exact h2
  rw [show condFromStr p =
    (let s := jsTrim p;
     let i := (indexOfChar ' ' s).getD s.length;
     if 1 ≤ i ∧ s.get? (i - 1) = some ':' then
       (typeFromAbbr (s.take (i - 1))).map (fun t => buildCond t (jsTrim (s.drop (i + 1))))
     else (typeFromAbbr []).map (fun t => buildCond t s)) from rfl]
  simp only [ht, hidx, Option.getD_none]
  rw [if_neg hguard, show typeFromAbbr [] = some CondType.hostWildcardT from by decide,
    Option.map_some']
  rfl

/-- Helper: boolean containment transfer. -/
theorem not_mem_of_contains_false (l : Str) (c : Char) (h : l.contains c = false) : c ∉ l := by
  intro hm
  have hc : l.contains c = true := by simpa using hm
  rw [h] at hc
  exact Bool.noConfusion hc

/-- Helper: boolean containment transfer, positive direction. -/
theorem contains_true_of_mem (l : Str) (c : Char) (h : c ∈ l) : l.contains c = true := by
  simpa using h

/-- Helper: an integer's decimal form avoids the payload separators. -/
theorem intToStr_no_sep (v : Int) : '~' ∉ intToStr v ∧ '/' ∉ intToStr v ∧ '$' ∉ intToStr v := by
  refine ⟨?_, ?_, ?_⟩ <;> intro hm <;> rcases (intToStr_chars v).2 _ hm with hd | hs
  · exact (digit_char_facts _ hd).2.2.2.1 rfl
  · exact absurd hs (by decide)
  · exact (digit_char_facts _ hd).2.2.2.2.1 rfl
  · exact absurd hs (by decide)
  · exact (digit_char_facts _ hd).2.2.2.2.2.1 rfl
  · exact absurd hs (by decide)

/-- Helper: a payload built from two integer fields around a tilde separator
is non-empty and trim-stable. -/
theorem intPairPayload_facts (v w : Int) :
    (intToStr v ++ '~' :: intToStr w) ≠ [] ∧
      jsTrim (intToStr v ++ '~' :: intToStr w) = intToStr v ++ '~' :: intToStr w := by
  refine ⟨by simp, ?_⟩
  apply jsTrim_eq_self_of_ends
  · intro c hc
    rw [head?_append_ne _ _ (intToStr_chars v).1] at hc
    exact head_not_ws_of_jsTrim _ (jsTrim_intToStr v) c hc
  · intro c hc
    rw [getLast?_append_ne _ _ (by simp),
      show ('~' :: intToStr w) = ['~'] ++ intToStr w from rfl,
      getLast?_append_ne _ _ (intToStr_chars w).1] at hc
    exact getLast_not_ws_of_jsTrim _ (jsTrim_intToStr w) c hc

/-- Helper: splitting a payload of two integer fields on the tilde. -/
theorem splitOnChar_intPair (v w : Int) :
    splitOnChar '~' (intToStr v ++ '~' :: intToStr w) = [intToStr v, intToStr w] := by
  rw [splitOnChar_append_sep '~' _ _ (intToStr_no_sep v).1,
    splitOnChar_no_sep '~' _ (intToStr_no_sep w).1]

/-- C4: semantic round-trip of condition serialization.  As stated for every
well-formed condition the claim fails (the counterexample below); it holds in
the amended form restricted to canonical fields: payloads stable under
trimming, a bypass pattern equal to its own normalization, an address in
parse-normal form, and numeric fields inside their documented ranges.  On
those conditions parsing the serialization returns exactly the original
condition, so in particular a non-null condition matching the same requests. -/
theorem condition_roundtrip_canonical (c : Cond) (h : canonicalCond c) :
    condFromStr (condStr c) = some c := by
  cases c with
  | trueC => decide
  | falseC p =>
    cases p with
    | none => decide
    | some q =>
      obtain ⟨hq, htq⟩ : q ≠ [] ∧ jsTrim q = q := h
      have h1 : condStr (Cond.falseC (some q)) = S "Disabled" ++ ':' :: ' ' :: q := by
        rw [show condStr (Cond.falseC (some q)) =
          lastAbbrOf CondType.falseT ++ [':'] ++ (if q ≠ [] then ' ' :: q else []) from rfl,
          if_pos hq, show lastAbbrOf CondType.falseT = S "Disabled" from by decide]
        simp
      rw [h1, condFromStr_typed_of (S "Disabled") q (by decide) (by decide) hq htq,
        show typeFromAbbr (S "Disabled") = some CondType.falseT from by decide,
        Option.map_some']
      rw [show buildCond CondType.falseT q = Cond.falseC (if q ≠ [] then some q else none)
        from rfl, if_pos hq]
  | urlRegex p =>
    have ht : jsTrim p = p := h
    by_cases hp : p = []
    · subst hp; decide
    · have h1 : condStr (Cond.urlRegex p) = S "UrlRegex" ++ ':' :: ' ' :: p := by
        rw [show condStr (Cond.urlRegex p) =
          lastAbbrOf CondType.urlRegexT ++ [':'] ++ (if p ≠ [] then ' ' :: p else []) from rfl,
          if_pos hp, show lastAbbrOf CondType.urlRegexT = S "UrlRegex" from by decide]
        simp
      rw [h1, condFromStr_typed_of (S "UrlRegex") p (by decide) (by decide) hp ht,
        show typeFromAbbr (S "UrlRegex") = some CondType.urlRegexT from by decide,
        Option.map_some']
      rfl
  | urlWildcard p =>
    have ht : jsTrim p = p := h
    by_cases hp : p = []
    · subst hp; decide
    · have h1 : condStr (Cond.urlWildcard p) = S "UrlWildcard" ++ ':' :: ' ' :: p := by
        rw [show condStr (Cond.urlWildcard p) =
          lastAbbrOf CondType.urlWildcardT ++ [':'] ++ (if p ≠ [] then ' ' :: p else [])
          from rfl,
          if_pos hp, show lastAbbrOf CondType.urlWildcardT = S "UrlWildcard" from by decide]
        simp
      rw [h1, condFromStr_typed_of (S "UrlWildcard") p (by decide) (by decide) hp ht,
        show typeFromAbbr (S "UrlWildcard") = some CondType.urlWildcardT from by decide,
        Option.map_some']
      rfl
  | hostRegex p =>
    have ht : jsTrim p = p := h
    by_cases hp : p = []
    · subst hp; decide
    · have h1 : condStr (Cond.hostRegex p) = S "HostRegex" ++ ':' :: ' ' :: p := by
        rw [show condStr (Cond.hostRegex p) =
          lastAbbrOf CondType.hostRegexT ++ [':'] ++ (if p ≠ [] then ' ' :: p else []) from rfl,
          if_pos hp, show lastAbbrOf CondType.hostRegexT = S "HostRegex" from by decide]
        simp
      rw [h1, condFromStr_typed_of (S "HostRegex") p (by decide) (by decide) hp ht,
        show typeFromAbbr (S "HostRegex") = some CondType.hostRegexT from by decide,
        Option.map_some']
      rfl
  | keyword p =>
    have ht : jsTrim p = p := h
    by_cases hp : p = []
    · subst hp; decide
    · have h1 : condStr (Cond.keyword p) = S "Keyword" ++ ':' :: ' ' :: p := by
        rw [show condStr (Cond.keyword p) =
          lastAbbrOf CondType.keywordT ++ [':'] ++ (if p ≠ [] then ' ' :: p else []) from rfl,
          if_pos hp, show lastAbbrOf CondType.keywordT = S "Keyword" from by decide]
        simp
      rw [h1, condFromStr_typed_of (S "Keyword") p (by decide) (by decide) hp ht,
        show typeFromAbbr (S "Keyword") = some CondType.keywordT from by decide,
        Option.map_some']
      rfl
  | hostWildcard p =>
    have ht : jsTrim p = p := h
    by_cases hbare : p ≠ [] ∧ p.getLast? ≠ some ':' ∧ p.contains ' ' = false
    · have h1 : condStr (Cond.hostWildcard p) = p := by
        rw [show condStr (Cond.hostWildcard p) =
          (if p ≠ [] ∧ p.getLast? ≠ some ':' ∧ p.contains ' ' = false then p
           else condStrTyped (Cond.hostWildcard p)) from rfl, if_pos hbare]
      rw [h1]
      exact condFromStr_bare p ht (not_mem_of_contains_false p ' ' hbare.2.2) hbare.2.1
    · by_cases hp : p = []
      · subst hp; decide
      · have h1 : condStr (Cond.hostWildcard p) = S "HostWildcard" ++ ':' :: ' ' :: p := by
          rw [show condStr (Cond.hostWildcard p) =
            (if p ≠ [] ∧ p.getLast? ≠ some ':' ∧ p.contains ' ' = false then p
             else condStrTyped (Cond.hostWildcard p)) from rfl, if_neg hbare,
            show condStrTyped (Cond.hostWildcard p) =
              lastAbbrOf CondType.hostWildcardT ++ [':'] ++ (if p ≠ [] then ' ' :: p else [])
              from rfl,
            if_pos hp, show lastAbbrOf CondType.hostWildcardT = S "HostWildcard" from by decide]
          simp
        rw [h1, condFromStr_typed_of (S "HostWildcard") p (by decide) (by decide) hp ht,
          show typeFromAbbr (S "HostWildcard") = some CondType.hostWildcardT from by decide,
          Option.map_some']
        rfl
  | bypassC p =>
    obtain ⟨hb, ht⟩ : bypassStrPart p = p ∧ jsTrim p = p := h
    by_cases hp : p = []
    · subst hp
      have h1 : condStr (Cond.bypassC []) = S "Bypass" ++ [':'] := by
        rw [show condStr (Cond.bypassC []) =
          lastAbbrOf CondType.bypassT ++ [':'] ++
            (if bypassStrPart [] ≠ [] then ' ' :: bypassStrPart [] else []) from rfl,
          hb, if_neg (by simp),
          show lastAbbrOf CondType.bypassT = S "Bypass" from by decide]
        simp
      rw [h1, condFromStr_typed_nil (S "Bypass") (by decide) (by decide),
        show typeFromAbbr (S "Bypass") = some CondType.bypassT from by decide,
        Option.map_some']
      rfl
    · have h1 : condStr (Cond.bypassC p) = S "Bypass" ++ ':' :: ' ' :: p := by
        rw [show condStr (Cond.bypassC p) =
          lastAbbrOf CondType.bypassT ++ [':'] ++
            (if bypassStrPart p ≠ [] then ' ' :: bypassStrPart p else []) from rfl,
          hb, if_pos hp, show lastAbbrOf CondType.bypassT = S "Bypass" from by decide]
        simp
      rw [h1, condFromStr_typed_of (S "Bypass") p (by decide) (by decide) hp ht,
        show typeFromAbbr (S "Bypass") = some CondType.bypassT from by decide,
        Option.map_some']
      rfl
  | ipC ip L =>
    obtain ⟨hparse, hnoslash, ht⟩ :
      (parseIp ip).map IpAddr.address = some ip ∧ ip.contains '/' = false ∧ jsTrim ip = ip := h
    have hipne : ip ≠ [] := by
      intro he
      subst he
      exact absurd hparse (by decide)
    have hpartne : (ip ++ '/' :: intToStr L) ≠ [] := by simp
    have hparttrim : jsTrim (ip ++ '/' :: intToStr L) = ip ++ '/' :: intToStr L := by
      apply jsTrim_eq_self_of_ends
      · intro c hc
        rw [head?_append_ne _ _ hipne] at hc
        exact head_not_ws_of_jsTrim _ ht c hc
      · intro c hc
        rw [getLast?_append_ne _ _ (by simp),
          show ('/' :: intToStr L) = ['/'] ++ intToStr L from rfl,
          getLast?_append_ne _ _ (intToStr_chars L).1] at hc
        exact getLast_not_ws_of_jsTrim _ (jsTrim_intToStr L) c hc
    have hsplit : splitOnChar '/' (ip ++ '/' :: intToStr L) = [ip, intToStr L] := by
      rw [splitOnChar_append_sep '/' _ _ (not_mem_of_contains_false ip '/' hnoslash),
        splitOnChar_no_sep '/' _ (intToStr_no_sep L).2.1]
    have h1 : condStr (Cond.ipC ip L) = S "Ip" ++ ':' :: ' ' :: (ip ++ '/' :: intToStr L) := by
      rw [show condStr (Cond.ipC ip L) =
        lastAbbrOf CondType.ipT ++ [':'] ++
          (if (ip ++ '/' :: intToStr L) ≠ [] then ' ' :: (ip ++ '/' :: intToStr L) else [])
        from rfl,
        if_pos hpartne, show lastAbbrOf CondType.ipT = S "Ip" from by decide]
      simp
    rw [h1, condFromStr_typed_of (S "Ip") _ (by decide) (by decide) hpartne hparttrim,
      show typeFromAbbr (S "Ip") = some CondType.ipT from by decide,
      Option.map_some']
    obtain ⟨a, hpa, haddr⟩ := Option.map_eq_some'.mp hparse
    rw [show buildCond CondType.ipT (ip ++ '/' :: intToStr L) =
      (match parseIp ((splitOnChar '/' (ip ++ '/' :: intToStr L)).headD []) with
       | some a => Cond.ipC a.address
           ((parseIntJS ((splitOnChar '/' (ip ++ '/' :: intToStr L)).getD 1 (S "32"))).getD 0)
       | none => Cond.ipC (S "0.0.0.0") 0) from rfl, hsplit]
    simp only [List.headD, List.getD, Option.getD_some, List.get?_cons_succ, List.get?_cons_zero]
    rw [hpa]
    rw [parseIntJS_intToStr L]
    simp [haddr]
  | hostLevels mn mx =>
    obtain ⟨hmn, hmx⟩ : 0 < mn ∧ 0 < mx := h
    obtain ⟨hpartne, hparttrim⟩ := intPairPayload_facts mn mx
    have h1 : condStr (Cond.hostLevels mn mx) =
        S "HostLevels" ++ ':' :: ' ' :: (intToStr mn ++ '~' :: intToStr mx) := by
      rw [show condStr (Cond.hostLevels mn mx) =
        lastAbbrOf CondType.hostLevelsT ++ [':'] ++
          (if (intToStr mn ++ '~' :: intToStr mx) ≠ []
           then ' ' :: (intToStr mn ++ '~' :: intToStr mx) else []) from rfl,
        if_pos hpartne, show lastAbbrOf CondType.hostLevelsT = S "HostLevels" from by decide]
      simp
    rw [h1, condFromStr_typed_of (S "HostLevels") _ (by decide) (by decide) hpartne hparttrim,
      show typeFromAbbr (S "HostLevels") = some CondType.hostLevelsT from by decide,
      Option.map_some']
    rw [show buildCond CondType.hostLevelsT (intToStr mn ++ '~' :: intToStr mx) =
      (let parts := (splitOnChar '~' (intToStr mn ++ '~' :: intToStr mx)).map parseIntJS
       Cond.hostLevels
         (match parts.getD 0 none with
          | some v => if 0 < v then v else 1
          | none => 1)
         (match parts.getD 1 none with
          | some v => if 0 < v then v else 1
          | none => 1)) from rfl, splitOnChar_intPair mn mx]
    simp only [List.map_cons, List.map_nil, parseIntJS_intToStr, List.getD,
      List.get?_cons_succ, List.get?_cons_zero, Option.getD_some]
    rw [if_pos hmn, if_pos hmx]
  | timeC sh eh =>
    obtain ⟨hsh0, hsh, heh0, heh⟩ : 0 ≤ sh ∧ sh < 24 ∧ 0 ≤ eh ∧ eh < 24 := h
    obtain ⟨hpartne, hparttrim⟩ := intPairPayload_facts sh eh
    have h1 : condStr (Cond.timeC sh eh) =
        S "Hour" ++ ':' :: ' ' :: (intToStr sh ++ '~' :: intToStr eh) := by
      rw [show condStr (Cond.timeC sh eh) =
        lastAbbrOf CondType.timeT ++ [':'] ++
          (if (intToStr sh ++ '~' :: intToStr eh) ≠ []
           then ' ' :: (intToStr sh ++ '~' :: intToStr eh) else []) from rfl,
        if_pos hpartne, show lastAbbrOf CondType.timeT = S "Hour" from by decide]
      simp
    rw [h1, condFromStr_typed_of (S "Hour") _ (by decide) (by decide) hpartne hparttrim,
      show typeFromAbbr (S "Hour") = some CondType.timeT from by decide,
      Option.map_some']
    rw [show buildCond CondType.timeT (intToStr sh ++ '~' :: intToStr eh) =
      (let parts := (splitOnChar '~' (intToStr sh ++ '~' :: intToStr eh)).map parseIntJS
       Cond.timeC
         (match parts.getD 0 none with
          | some v => if 0 ≤ v ∧ v < 24 then v else 0
          | none => 0)
         (match parts.getD 1 none with
          | some v => if 0 ≤ v ∧ v < 24 then v else 0
          | none => 0)) from rfl, splitOnChar_intPair sh eh]
    simp only [List.map_cons, List.map_nil, parseIntJS_intToStr, List.getD,
      List.get?_cons_succ, List.get?_cons_zero, Option.getD_some]
    rw [if_pos ⟨hsh0, hsh⟩, if_pos ⟨heh0, heh⟩]
  | weekday days sd ed =>
    cases days with
    | some d =>
      obtain ⟨h7, hnt, htd, hsd, hed⟩ :
        d.length = 7 ∧ d.contains '~' = false ∧ jsTrim d = d ∧ sd = none ∧ ed = none := h
      subst hsd
      subst hed
      have hdne : d ≠ [] := by
        intro he
        rw [he] at h7
        simp at h7
      have h1 : condStr (Cond.weekday (some d) none none) =
          S "Weekday" ++ ':' :: ' ' :: d := by
        rw [show condStr (Cond.weekday (some d) none none) =
          lastAbbrOf CondType.weekdayT ++ [':'] ++ (if d ≠ [] then ' ' :: d else []) from rfl,
          if_pos hdne, show lastAbbrOf CondType.weekdayT = S "Weekday" from by decide]
        simp
      rw [h1, condFromStr_typed_of (S "Weekday") d (by decide) (by decide) hdne htd,
        show typeFromAbbr (S "Weekday") = some CondType.weekdayT from by decide,
        Option.map_some']
      rw [show buildCond CondType.weekdayT d =
        (if d.contains '~' = false ∧ d.length = 7 then Cond.weekday (some d) none none
         else
          let parts := (splitOnChar '~' d).map parseIntJS
          Cond.weekday none
            (some (match parts.getD 0 none with
              | some v => if 0 ≤ v ∧ v ≤ 6 then v else 0
              | none => 0))
            (some (match parts.getD 1 none with
              | some v => if 0 ≤ v ∧ v ≤ 6 then v else 0
              | none => 0))) from rfl, if_pos ⟨hnt, h7⟩]
    | none =>
      obtain ⟨⟨v, hsd, hv0, hv6⟩, ⟨w, hed, hw0, hw6⟩⟩ :
        (∃ v, sd = some v ∧ 0 ≤ v ∧ v ≤ 6) ∧ (∃ w, ed = some w ∧ 0 ≤ w ∧ w ≤ 6) := h
      subst hsd
      subst hed
      obtain ⟨hpartne, hparttrim⟩ := intPairPayload_facts v w
      have h1 : condStr (Cond.weekday none (some v) (some w)) =
          S "Weekday" ++ ':' :: ' ' :: (intToStr v ++ '~' :: intToStr w) := by
        rw [show condStr (Cond.weekday none (some v) (some w)) =
          lastAbbrOf CondType.weekdayT ++ [':'] ++
            (if (intToStr v ++ '~' :: intToStr w) ≠ []
             then ' ' :: (intToStr v ++ '~' :: intToStr w) else []) from rfl,
          if_pos hpartne, show lastAbbrOf CondType.weekdayT = S "Weekday" from by decide]
        simp
      rw [h1, condFromStr_typed_of (S "Weekday") _ (by decide) (by decide) hpartne hparttrim,
        show typeFromAbbr (S "Weekday") = some CondType.weekdayT from by decide,
        Option.map_some']
      have hcont : (intToStr v ++ '~' :: intToStr w).contains '~' = true :=
        contains_true_of_mem _ '~' (List.mem_append_right _ (List.mem_cons_self _ _))
      rw [show buildCond CondType.weekdayT (intToStr v ++ '~' :: intToStr w) =
        (if (intToStr v ++ '~' :: intToStr w).contains '~' = false ∧
            (intToStr v ++ '~' :: intToStr w).length = 7 then
          Cond.weekday (some (intToStr v ++ '~' :: intToStr w)) none none
         else
          let parts := (splitOnChar '~' (intToStr v ++ '~' :: intToStr w)).map parseIntJS
          Cond.weekday none
            (some (match parts.getD 0 none with
              | some x => if 0 ≤ x ∧ x ≤ 6 then x else 0
              | none => 0))
            (some (match parts.getD 1 none with
              | some x => if 0 ≤ x ∧ x ≤ 6 then x else 0
              | none => 0))) from rfl,
        if_neg (by rintro ⟨hc1, _⟩; rw [hcont] at hc1; exact Bool.noConfusion hc1),
        splitOnChar_intPair v w]
      simp only [List.map_cons, List.map_nil, parseIntJS_intToStr, List.getD,
        List.get?_cons_succ, List.get?_cons_zero, Option.getD_some]
      rw [if_pos ⟨hv0, hv6⟩, if_pos ⟨hw0, hw6⟩]

/-- Counterexample for C4 as frozen: the UrlRegex condition with the
well-formed pattern " a" serializes to "UrlRegex:  a", which parses back with
the payload trimmed to "a"; the reparsed condition matches the url "xa" while
the original does not, so the round-trip is not semantic-preserving. -/
theorem condition_roundtrip_counterexample :
    condFromStr (condStr (Cond.urlRegex (S " a"))) = some (Cond.urlRegex (S "a")) ∧
    condMatch (Cond.urlRegex (S " a")) ⟨S "xa", S "x", S "http"⟩ 0 0 = some false ∧
    condMatch (Cond.urlRegex (S "a")) ⟨S "xa", S "x", S "http"⟩ 0 0 = some true :=
  ⟨by decide, by decide, by decide⟩

/-- Witness for C4 at a concrete canonical condition. -/
theorem condition_roundtrip_canonical_witness :
    canonicalCond (Cond.hostLevels 2 4) ∧
      condFromStr (condStr (Cond.hostLevels 2 4)) = some (Cond.hostLevels 2 4) :=
  ⟨⟨by decide, by decide⟩,
    condition_roundtrip_canonical (Cond.hostLevels 2 4) ⟨by decide, by decide⟩⟩

/-- Helper: a separator-terminated prefix free of the separator determines a
unique decomposition. -/
theorem sep_split_unique (k : Char) (a x b y : Str) (ha : k ∉ a) (hb : k ∉ b)
    (h : a ++ k :: x = b ++ k :: y) : a = b ∧ x = y := by
  induction a generalizing b with
  | nil =>
    cases b with
    | nil =>
      simp only [List.nil_append, List.cons.injEq] at h
      exact ⟨rfl, h.2⟩
    | cons c t =>
      simp only [List.nil_append, List.cons_append, List.cons.injEq] at h
      exact absurd (h.1 ▸ List.mem_cons_self c t) hb
  | cons c t ih =>
    cases b with
    | nil =>
      simp only [List.cons_append, List.nil_append, List.cons.injEq] at h
      exact absurd (h.1.symm ▸ List.mem_cons_self c t) ha
    | cons d u =>
      simp only [List.cons_append, List.cons.injEq] at h
      obtain ⟨hcd, hrest⟩ := h
      obtain ⟨h1, h2⟩ := ih u (fun hm => ha (List.mem_cons_of_mem c hm))
        (fun hm => hb (List.mem_cons_of_mem d hm)) hrest
      exact ⟨by rw [hcd, h1], h2⟩

/-- Helper: a separator-led suffix free of the separator determines a unique
decomposition (the split at the last occurrence). -/
theorem sep_split_unique_last (k : Char) (a x b y : Str) (hx : k ∉ x) (hy : k ∉ y)
    (h : a ++ k :: x = b ++ k :: y) : a = b ∧ x = y := by
  have hr : x.reverse ++ k :: a.reverse = y.reverse ++ k :: b.reverse := by
    have := congrArg List.reverse h
    simpa [List.reverse_append] using this
  obtain ⟨h1, h2⟩ := sep_split_unique k x.reverse a.reverse y.reverse b.reverse
    (by simpa using hx) (by simpa using hy) hr
  constructor
  · have := congrArg List.reverse h2
    simpa using this
  · have := congrArg List.reverse h1
    simpa using this

/-- Helper: the serialized optional day field never contains the tilde. -/
theorem tilde_not_mem_optIntStrJS (o : Option Int) : '~' ∉ optIntStrJS o := by
  cases o with
  | none => decide
  | some v => exact (intToStr_no_sep v).1

/-- Helper: equal cache tags force the same condition type and the same
handler payload. -/
theorem condTag_parts (c1 c2 : Cond) (ht : condTag c1 = condTag c2) :
    condTypeOf c1 = condTypeOf c2 ∧ condStrPart c1 = condStrPart c2 := by
  have hd1 : '$' ∉ condTypeName (condTypeOf c1) := by
    cases c1 <;> simp only [condTypeOf] <;> decide
  have hd2 : '$' ∉ condTypeName (condTypeOf c2) := by
    cases c2 <;> simp only [condTypeOf] <;> decide
  obtain ⟨hn, hp⟩ := sep_split_unique '$' _ _ _ _ hd1 hd2 ht
  refine ⟨?_, hp⟩
  cases h1 : condTypeOf c1 <;> cases h2 : condTypeOf c2 <;> rw [h1, h2] at hn <;>
    first
    | rfl
    | exact absurd hn (by decide)

/-- C9: tag equality implies behavioural equality.  As frozen the claim fails
for BypassCondition (the counterexample below: the normalized pattern drops a
scheme restriction, so distinct patterns with different matching collide on
one tag).  A second collision sits in the weekday type: an empty days string
enters the tag through the str handler but is falsy for the matcher, which
then reads the day range the tag does not record, so equal-tag weekday
conditions with empty days strings and different ranges match differently.
The claim holds in the amended form: for conditions that are not bypass
conditions, with two weekday conditions using the same field representation
and any present days string truthy, equal cache tags force equal match
results on every request at every instant. -/
theorem condTag_behavioral (c1 c2 : Cond) (h1 : notBypassCond c1) (h2 : notBypassCond c2)
    (hw : weekdaySameRep c1 c2) (htr1 : weekdayDaysTruthy c1) (htr2 : weekdayDaysTruthy c2)
    (ht : condTag c1 = condTag c2) :
    ∀ r day hour, condMatch c1 r day hour = condMatch c2 r day hour := by
  obtain ⟨htype, hpart⟩ := condTag_parts c1 c2 ht
  cases c1 with
  | trueC =>
    cases c2 <;> first
      | (intro r day hour; rfl)
      | simp [condTypeOf] at htype
  | falseC p1 =>
    cases c2 <;> first
      | (intro r day hour; rfl)
      | simp [condTypeOf] at htype
  | urlRegex p1 =>
    cases c2 with
    | urlRegex p2 =>
      have hp : p1 = p2 := hpart
      subst hp
      intro r day hour
      rfl
    | _ => simp [condTypeOf] at htype
  | urlWildcard p1 =>
    cases c2 with
    | urlWildcard p2 =>
      have hp : p1 = p2 := hpart
      subst hp
      intro r day hour
      rfl
    | _ => simp [condTypeOf] at htype
  | hostRegex p1 =>
    cases c2 with
    | hostRegex p2 =>
      have hp : p1 = p2 := hpart
      subst hp
      intro r day hour
      rfl
    | _ => simp [condTypeOf] at htype
  | hostWildcard p1 =>
    cases c2 with
    | hostWildcard p2 =>
      have hp : p1 = p2 := hpart
      subst hp
      intro r day hour
      rfl
    | _ => simp [condTypeOf] at htype
  | bypassC p1 => exact absurd rfl h1
  | keyword p1 =>
    cases c2 with
    | keyword p2 =>
      have hp : p1 = p2 := hpart
      subst hp
      intro r day hour
      rfl
    | _ => simp [condTypeOf] at htype
  | ipC ip1 L1 =>
    cases c2 with
    | ipC ip2 L2 =>
      have hp : ip1 ++ '/' :: intToStr L1 = ip2 ++ '/' :: intToStr L2 := hpart
      obtain ⟨hip, hL⟩ := sep_split_unique_last '/' ip1 (intToStr L1) ip2 (intToStr L2)
        (intToStr_no_sep L1).2.1 (intToStr_no_sep L2).2.1 hp
      have hLL : L1 = L2 := intToStr_inj L1 L2 hL
      subst hip
      subst hLL
      intro r day hour
      rfl
    | _ => simp [condTypeOf] at htype
  | hostLevels mn1 mx1 =>
    cases c2 with
    | hostLevels mn2 mx2 =>
      have hp : intToStr mn1 ++ '~' :: intToStr mx1 = intToStr mn2 ++ '~' :: intToStr mx2 :=
        hpart
      obtain ⟨hmn, hmx⟩ := sep_split_unique '~' (intToStr mn1) (intToStr mx1)
        (intToStr mn2) (intToStr mx2) (intToStr_no_sep mn1).1 (intToStr_no_sep mn2).1 hp
      have e1 : mn1 = mn2 := intToStr_inj mn1 mn2 hmn
      have e2 : mx1 = mx2 := intToStr_inj mx1 mx2 hmx
      subst e1
      subst e2
      intro r day hour
      rfl
    | _ => simp [condTypeOf] at htype
  | weekday d1 s1 e1 =>
    cases c2 with
    | weekday d2 s2 e2 =>
      cases d1 with
      | some x1 =>
        cases d2 with
        | some x2 =>
          have hx : x1 = x2 := hpart
          subst hx
          have hne : x1 ≠ [] := htr1
          intro r day hour
          simp only [condMatch, if_pos hne]
        | none =>
          have hws : (some x1).isSome = (none : Option Str).isSome := hw
          simp at hws
      | none =>
        cases d2 with
        | some x2 =>
          have hws : (none : Option Str).isSome = (some x2).isSome := hw
          simp at hws
        | none =>
          have hp : optIntStrJS s1 ++ '~' :: optIntStrJS e1 =
              optIntStrJS s2 ++ '~' :: optIntStrJS e2 := hpart
          obtain ⟨hs, he⟩ := sep_split_unique '~' (optIntStrJS s1) (optIntStrJS e1)
            (optIntStrJS s2) (optIntStrJS e2) (tilde_not_mem_optIntStrJS s1)
            (tilde_not_mem_optIntStrJS s2) hp
          have e1' : s1 = s2 := optIntStrJS_inj s1 s2 hs
          have e2' : e1 = e2 := optIntStrJS_inj e1 e2 he
          subst e1'
          subst e2'
          intro r day hour
          rfl
    | _ => simp [condTypeOf] at htype
  | timeC sh1 eh1 =>
    cases c2 with
    | timeC sh2 eh2 =>
      have hp : intToStr sh1 ++ '~' :: intToStr eh1 = intToStr sh2 ++ '~' :: intToStr eh2 :=
        hpart
      obtain ⟨ha, hb⟩ := sep_split_unique '~' (intToStr sh1) (intToStr eh1)
        (intToStr sh2) (intToStr eh2) (intToStr_no_sep sh1).1 (intToStr_no_sep sh2).1 hp
      have e1 : sh1 = sh2 := intToStr_inj sh1 sh2 ha
      have e2 : eh1 = eh2 := intToStr_inj eh1 eh2 hb
      subst e1
      subst e2
      intro r day hour
      rfl
    | _ => simp [condTypeOf] at htype

/-- Counterexample for C9 as frozen: two bypass conditions whose tags agree
(the analyzer's normalized pattern discards the scheme prefix) but whose
match results differ on a request with a different scheme. -/
theorem condTag_collision_counterexample :
    condTag (Cond.bypassC (S "http://example.com")) =
      condTag (Cond.bypassC (S "example.com")) ∧
    condMatch (Cond.bypassC (S "http://example.com"))
      ⟨S "https://example.com/", S "example.com", S "https"⟩ 0 0 = some false ∧
    condMatch (Cond.bypassC (S "example.com"))
      ⟨S "https://example.com/", S "example.com", S "https"⟩ 0 0 = some true :=
  ⟨by decide, by decide, by decide⟩

/-- Witness for C9 at two distinct non-bypass conditions with equal tags. -/
theorem condTag_behavioral_witness :
    notBypassCond (Cond.falseC none) ∧ notBypassCond (Cond.falseC (some [])) ∧
    weekdaySameRep (Cond.falseC none) (Cond.falseC (some [])) ∧
    weekdayDaysTruthy (Cond.falseC none) ∧ weekdayDaysTruthy (Cond.falseC (some [])) ∧
    condTag (Cond.falseC none) = condTag (Cond.falseC (some [])) ∧
    Cond.falseC none ≠ Cond.falseC (some []) ∧
    condMatch (Cond.falseC none) ⟨S "http://a/", S "a", S "http"⟩ 0 0 =
      condMatch (Cond.falseC (some [])) ⟨S "http://a/", S "a", S "http"⟩ 0 0 :=
  ⟨fun he => CondType.noConfusion he, fun he => CondType.noConfusion he, trivial,
    trivial, trivial, by decide, by decide,
    condTag_behavioral (Cond.falseC none) (Cond.falseC (some []))
      (fun he => CondType.noConfusion he) (fun he => CondType.noConfusion he)
      trivial trivial trivial (by decide) ⟨S "http://a/", S "a", S "http"⟩ 0 0⟩
